import Mathlib

/-!
# Verification of the ottoscaler execution engine

Shallow embedding of the core of the ottoscaler repository:

* the pipeline scheduler (`internal/pipeline`, reachable through
  `internal/k8s/client.go` in this source drop): `buildExecutionOrder`,
  `executePipeline`, `executeStage` / `retryStage`, `createWorkerConfigs`,
  `sendProgress`;
* the worker lifecycle manager (`internal/worker`): `CreateAndWaitForWorker`;
* the log streaming server (`internal/grpc/log_streaming.go`):
  `RegisterWorker`, `StreamLogs`, `processLogEntry`,
  `countActiveSessionsForWorker`, `findSessionByWorker`;
* the gRPC surface (`internal/grpc/server.go`): `ExecutePipeline` admission
  and the pipeline registry, `sanitizeTaskID`, `sanitizeLabel`.

Modelling conventions:

* Go maps are embedded as a list of keys plus a value function (`GoDegMap`),
  or as association lists; Go's map-iteration order is nondeterministic, the
  embedding fixes it to list order (every property proved below is
  insensitive to this order).
* Buffered Go channels with non-blocking send (`select { case ch <- v:
  default: }`) are embedded as a list of delivered values with a capacity
  bound (`trySend`); the embedding captures the schedules in which the
  consumer performs no receive during the modelled emission window, which
  the Go memory model permits (the consumer may be blocked in `stream.Send`).
* Effects whose outcome is decided outside the modelled code (pod creation,
  pod terminal phase, egress forwarding) are injected as explicit parameters.
* Free-text log/progress messages that no claim depends on (Korean format
  strings, timestamps, worker pod name lists inside progress events) are
  omitted from the event records; structured fields that claims mention
  (status, stage id, percentage, error message, ACK sequence) are kept.
* Go `int32`/`int64` counters that the code only increments and compares
  with `<` are embedded as `Nat`; the in-degree counters of
  `buildExecutionOrder`, which Go can drive below zero through the
  `inDegree[otherID]--` missing-key quirk, are embedded as `Int` and the
  quirk (a missing key is materialised with value -1) is embedded exactly.
-/

set_option linter.unusedVariables false

/-! ## Progress events (pipeline scheduler, `PipelineProgress`) -/

/-- Stage status codes (`pb.StageStatus`). -/
inductive EvStatus
  | pending | running | completed | failed | retrying | skipped
  deriving DecidableEq, Repr

/-- A terminal stage status: `completed` or `failed`. -/
def EvStatus.isTerminal : EvStatus → Bool
  | .completed => true
  | .failed => true
  | _ => false

/-- A progress event (`pb.PipelineProgress`), restricted to the structured
fields claims depend on. `errorMessage = ""` models the unset proto field. -/
structure Ev where
  pipelineId : String
  stageId : String
  status : EvStatus
  percentage : Int
  errorMessage : String
  deriving DecidableEq, Repr

/-- Event constructor helper. -/
def mkEv (pid sid : String) (st : EvStatus) (pct : Int) (err : String) : Ev :=
  { pipelineId := pid, stageId := sid, status := st, percentage := pct, errorMessage := err }

/-- A pipeline-level terminal event: empty stage id and terminal status. -/
def Ev.isPipelineTerminal (e : Ev) : Bool :=
  e.stageId == "" && e.status.isTerminal

/-! ## Worker lifecycle manager: `Manager.CreateAndWaitForWorker`

`CreateAndWaitForWorker` creates the pod, waits for a terminal phase, and
always runs `CleanupPod` on a fresh `context.Background()` bounded by a
30-second timeout; the cleanup error is only logged. The outcomes of the
three cluster interactions are injected as parameters. -/

/-- The context a cluster call runs under: the caller's context, or an
independent `context.Background()` with a timeout in seconds. -/
inductive CleanupCtx
  | caller
  | independent (timeoutSeconds : Nat)
  deriving DecidableEq, Repr

/-- Outcome of `WaitForPodCompletion`: the pod succeeded, the pod reached
`Failed` with a synthesized reason, or the caller's context was cancelled. -/
inductive WaitOutcome
  | success
  | podFailed (reason : String)
  | cancelled (err : String)
  deriving DecidableEq, Repr

/-- Cluster interactions performed by the manager, in order. -/
inductive MgrAct
  | createPod (name : String)
  | waitForCompletion (name : String)
  | deletePod (name : String) (ctx : CleanupCtx)
  | warnCleanupFailure (name : String) (msg : String)
  deriving DecidableEq, Repr

/-- The error `WaitForPodCompletion` returns for each outcome
(`pod %s failed: %s`, or `ctx.Err()` verbatim). -/
def waitErrOf (name : String) : WaitOutcome → Option String
  | .success => none
  | .podFailed r => some ("pod " ++ name ++ " failed: " ++ r)
  | .cancelled e => some e

/-- `Manager.CreateAndWaitForWorker`: returns the Go error value and the
ordered list of cluster interactions. `createErr` is the result of
`CreateWorkerPod`, `w` the result of the wait, `cleanupErr` of `DeletePod`. -/
def createAndWaitForWorker (name : String) (createErr : Option String) (w : WaitOutcome)
    (cleanupErr : Option String) : Option String × List MgrAct :=
  match createErr with
  | some e => (some ("worker creation failed: " ++ e), [.createPod name])
  | none =>
    let werr := waitErrOf name w
    let acts := [MgrAct.createPod name, .waitForCompletion name,
                 .deletePod name (.independent 30)] ++
      (match cleanupErr with
       | some m => [MgrAct.warnCleanupFailure name m]
       | none => [])
    (werr.map (fun e => "worker " ++ name ++ " failed: " ++ e), acts)

/-! ## Log streaming server (`internal/grpc/log_streaming.go`) -/

/-- A `StreamingSession`, restricted to the fields the claims depend on. -/
structure SessionSt where
  sessionId : String
  workerId : String
  taskId : String
  logCount : Nat
  errorCount : Nat
  isActive : Bool
  lastActive : String
  deriving DecidableEq, Repr

/-- An inbound `pb.LogEntry`. Absent proto string fields are `""`. -/
structure LogEntryIn where
  workerId : String
  taskId : String
  message : String
  timestamp : String
  level : String
  source : String
  deriving DecidableEq, Repr

/-- `pb.LogResponse` status codes. -/
inductive RespStatus | ACK | RETRY | DROP
  deriving DecidableEq, Repr

/-- A `pb.LogResponse`; `sequence = 0` models the unset proto field. -/
structure LogResponse where
  status : RespStatus
  message : String
  sequence : Nat
  deriving DecidableEq, Repr

/-- `LogStreamingServer.findSessionByWorker`: first active session bound to
the worker id (Go iterates a map in arbitrary order; the embedding fixes
list order). -/
def findSessionByWorker (sessions : List SessionSt) (wid : String) : Option SessionSt :=
  sessions.find? (fun s => s.workerId == wid && s.isActive)

/-- `LogStreamingServer.countActiveSessionsForWorker`. -/
def countActiveSessionsForWorker (sessions : List SessionSt) (wid : String) : Nat :=
  (sessions.filter (fun s => s.workerId == wid && s.isActive)).length

/-- `pb.RegistrationResponse` status codes. -/
inductive RegStatus | SUCCESS | ALREADY_REGISTERED | SERVER_FULL
  deriving DecidableEq, Repr

/-- `maxSessionsPerWorker`, set to 5 in `NewLogStreamingServer`. -/
def maxSessionsPerWorker : Nat := 5

/-- `LogStreamingServer.RegisterWorker`. A nil request or empty worker/task
id is a gRPC `InvalidArgument` error (`Except.error`); otherwise the reply
carries a status and a session id. The already-registered scan and
`countActiveSessionsForWorker` use the same predicate (active session with
this worker id); `newSessionId` injects the generated id
(`<worker>-<UnixNano>`). -/
def registerWorker (sessions : List SessionSt) (req : Option (String × String))
    (newSessionId : String) : Except String (RegStatus × String) :=
  match req with
  | none => .error "request cannot be nil"
  | some (wid, tid) =>
    if wid = "" then .error "worker_id is required"
    else if tid = "" then .error "task_id is required"
    else
      match findSessionByWorker sessions wid with
      | some s => .ok (.ALREADY_REGISTERED, s.sessionId)
      | none =>
        if maxSessionsPerWorker ≤ countActiveSessionsForWorker sessions wid then
          .ok (.SERVER_FULL, "")
        else
          .ok (.SUCCESS, newSessionId)

/-- Result of `LogStreamingServer.processLogEntry` on one entry. -/
inductive ProcOutcome
  | ok (filled : LogEntryIn)
  | procErr (msg : String)
  deriving DecidableEq, Repr

/-- The defaulting step of `processLogEntry`: fill absent timestamp with
now, absent level with `INFO`, absent source with `stdout`. -/
def fillDefaults (e : LogEntryIn) (now : String) : LogEntryIn :=
  { e with
    timestamp := if e.timestamp = "" then now else e.timestamp
    level := if e.level = "" then "INFO" else e.level
    source := if e.source = "" then "stdout" else e.source }

/-- `LogStreamingServer.processLogEntry`: updates `LastActive`, validates
required fields, fills defaults, and forwards through the egress client
with retry. `forwardOk` injects whether `forwardLogEntryWithRetry`
eventually succeeded. On any error the session's `ErrorCount` is bumped. -/
def processLogEntry (e : LogEntryIn) (s : SessionSt) (now : String) (forwardOk : Bool) :
    ProcOutcome × SessionSt :=
  let s := { s with lastActive := now }
  if e.workerId = "" then
    (.procErr "worker_id is required", { s with errorCount := s.errorCount + 1 })
  else if e.taskId = "" then
    (.procErr "task_id is required", { s with errorCount := s.errorCount + 1 })
  else if e.message = "" then
    (.procErr "message is required", { s with errorCount := s.errorCount + 1 })
  else
    let fe := fillDefaults e now
    if forwardOk then (.ok fe, s)
    else (.procErr "log forwarding failed", { s with errorCount := s.errorCount + 1 })

/-- One iteration of the `StreamLogs` receive loop, for one received item.
Returns the per-entry response, the stream's (possibly newly bound) current
session, and the list of entries delivered to the handler egress by this
iteration. `entry = none` models a nil `*pb.LogEntry`. -/
def streamStep (sessions : List SessionSt) (cur : Option SessionSt) (entry : Option LogEntryIn)
    (forwardOk : Bool) (now : String) : LogResponse × Option SessionSt × List LogEntryIn :=
  match entry with
  | none => ({ status := .DROP, message := "log entry cannot be nil", sequence := 0 }, cur, [])
  | some e =>
    let bound := match cur with
      | some s => some s
      | none => findSessionByWorker sessions e.workerId
    match bound with
    | none =>
      ({ status := .DROP, message := "Worker " ++ e.workerId ++ " not registered",
         sequence := 0 }, none, [])
    | some s =>
      match processLogEntry e s now forwardOk with
      | (.procErr m, s1) =>
        ({ status := .RETRY, message := "Processing error: " ++ m, sequence := 0 }, some s1, [])
      | (.ok fe, s1) =>
        let s2 := { s1 with logCount := s1.logCount + 1 }
        ({ status := .ACK, message := "Log received successfully", sequence := s2.logCount },
          some s2, [fe])

/-- The `StreamLogs` receive loop over a finite inbound prefix: each item is
an (entry, egress-forwarding-outcome) pair. Returns the responses in order,
the final bound session, and everything delivered to the egress. -/
def runStream (sessions : List SessionSt) :
    Option SessionSt → List (Option LogEntryIn × Bool) → String →
    List LogResponse × Option SessionSt × List LogEntryIn
  | cur, [], _ => ([], cur, [])
  | cur, (e, fOk) :: rest, now =>
    let r1 := streamStep sessions cur e fOk now
    let r2 := runStream sessions r1.2.1 rest now
    (r1.1 :: r2.1, r2.2.1, r1.2.2 ++ r2.2.2)

/-! ## DAG analysis: `Executor.buildExecutionOrder`

The executor keeps `dependencies : map[string][]string` and
`inDegree : map[string]int`. A Go map is embedded as `GoDegMap`: the key
list (iteration fixed to list order) plus a total value function; reading a
missing key yields the zero value, exactly as in Go, so the statement
`inDegree[otherID]--` on a missing key materialises the key with value -1. -/

/-- Stage-id-keyed dependency map (`map[string][]string`). -/
abbrev DepMap := List (String × List String)

/-- Keys of a dependency map. -/
def keysOf (deps : DepMap) : List String := deps.map Prod.fst

/-- Map lookup: the `DependsOn` list of a stage id (missing key reads as the
zero value `[]`). -/
def depsOf (deps : DepMap) (k : String) : List String :=
  match deps.find? (fun e => e.1 == k) with
  | some e => e.2
  | none => []

/-- A Go `map[string]int`: key list plus value function. -/
structure GoDegMap where
  keys : List String
  val : String → Int

/-- Map read `m[k]`: the stored value, or Go's zero value 0 when absent. -/
def GoDegMap.get (m : GoDegMap) (k : String) : Int :=
  if k ∈ m.keys then m.val k else 0

/-- The Go statement `m[k]--` : decrement when present, otherwise insert the
key with value `0 - 1 = -1`. -/
def decKey (m : GoDegMap) (k : String) : GoDegMap :=
  { keys := if k ∈ m.keys then m.keys else m.keys ++ [k]
    val := fun j => if j = k then m.get k - 1 else m.val j }

/-- The Go statement `delete(m, k)`. -/
def eraseKey (m : GoDegMap) (k : String) : GoDegMap :=
  { keys := m.keys.filter (fun j => decide (¬ j = k)), val := m.val }

/-- Inner loop of `buildExecutionOrder`'s removal phase: for one
`dependencies` entry `e`, decrement `inDegree[e.1]` once per occurrence of
the processed stage `x` in `e.2`. -/
def decForDeps (x : String) (m : GoDegMap) (e : String × List String) : GoDegMap :=
  e.2.foldl (fun acc d => if d = x then decKey acc e.1 else acc) m

/-- Removal of one processed stage `x`: `delete(inDegree, x)` followed by the
decrement sweep over the whole `dependencies` map. -/
def processStage (deps : DepMap) (m : GoDegMap) (x : String) : GoDegMap :=
  deps.foldl (decForDeps x) (eraseKey m x)

/-- Removal of a whole level, one member at a time, in order. -/
def processLevel (deps : DepMap) (m : GoDegMap) (level : List String) : GoDegMap :=
  level.foldl (processStage deps) m

/-- The zero-in-degree scan: `for stageID, degree := range inDegree { if
degree == 0 { ... } }`. -/
def zeroLevel (m : GoDegMap) : List String :=
  m.keys.filter (fun k => decide (m.get k = 0))

/-- The `for remaining > 0` loop of `buildExecutionOrder`. `r` is Go's
`remaining` counter. `fuel` only bounds the number of iterations so that the
recursion is structural: every iteration deletes at least one stage from
`inDegree` and decrements `remaining` accordingly, so `fuel = initial
remaining` makes the exhaustion branch (`fuel = 0` with `r > 0`)
unreachable. -/
def bEOLoop (deps : DepMap) : Nat → Nat → GoDegMap → Option (List (List String))
  | _, 0, _ => some []
  | 0, _ + 1, _ => none
  | fuel + 1, r + 1, m =>
    let level := zeroLevel m
    if level = [] then none
    else
      match bEOLoop deps fuel (r + 1 - level.length) (processLevel deps m level) with
      | none => none
      | some rest => some (level :: rest)

/-- The initial `inDegree` map: every stage id mapped to the length of its
`DependsOn` list. -/
def initDegMap (deps : DepMap) : GoDegMap :=
  { keys := keysOf deps, val := fun k => ((depsOf deps k).length : Int) }

/-- `Executor.buildExecutionOrder` on the executor's stage map: `none`
models the `순환 의존성 감지됨` (circular dependency) error. -/
def buildExecutionOrder (deps : DepMap) : Option (List (List String)) :=
  bEOLoop deps (keysOf deps).length (keysOf deps).length (initDegMap deps)

/-- An edge of the dependency graph: `a` is listed in `b`'s `DependsOn`
(so `a` must run before `b`). -/
def DepEdge (deps : DepMap) (a b : String) : Prop := a ∈ depsOf deps b

/-- The dependency graph contains a directed cycle: a chain of edges
leading from some vertex back to itself (a self-edge is `l = []`). -/
def CycleIn (deps : DepMap) : Prop :=
  ∃ x : String, ∃ l : List String, List.Chain (DepEdge deps) x (l ++ [x])

/-- Every referenced dependency id names an existing stage. -/
def AllPresent (deps : DepMap) : Prop := ∀ e ∈ deps, ∀ a ∈ e.2, a ∈ keysOf deps

/-! ## Pipeline stages, worker specs, per-stage execution -/

/-- `pb.RetryPolicy`. -/
structure RetryPolicy where
  maxAttempts : Nat
  retryDelaySeconds : Nat
  deriving DecidableEq, Repr

/-- `pb.PipelineStage`, restricted to the fields the engine reads. -/
structure StageSpec where
  stageId : String
  name : String
  stageType : String
  image : String
  command : List String
  args : List String
  workerCount : Nat
  dependsOn : List String
  retryPolicy : Option RetryPolicy
  deriving DecidableEq, Repr

/-- `worker.WorkerConfig` as synthesized by the pipeline executor. -/
structure WorkerConfig where
  name : String
  image : String
  command : List String
  args : List String
  labels : List (String × String)
  deriving DecidableEq, Repr

/-- The executor's hard-coded default image (`busybox:latest`). -/
def defaultWorkerImage : String := "busybox:latest"

/-- `Executor.createWorkerConfigs`: one config per worker index `1..k` with
name `otto-<pipeline>-<stage>-<i>` built by `fmt.Sprintf` (no sanitization),
the four labels of the Go map literal, and the default image when the stage
image is empty. -/
def createWorkerConfigs (pid : String) (st : StageSpec) : List WorkerConfig :=
  let image := if st.image = "" then defaultWorkerImage else st.image
  (List.range st.workerCount).map fun i =>
    { name := "otto-" ++ pid ++ "-" ++ st.stageId ++ "-" ++ toString (i + 1)
      image := image
      command := st.command
      args := st.args
      labels := [("pipeline-id", pid), ("stage-id", st.stageId),
                 ("stage-type", st.stageType), ("managed-by", "ottoscaler")] }

/-- Trace of one per-stage flow (`executeStage` plus its retries): the stage
progress events in emission order, the pod names whose creation was
requested in order (repeats across retries: the names are rebuilt
identically each attempt), the retry sleeps in seconds, and the error
`executeStage` returns. -/
structure StageRun where
  events : List Ev
  podsCreated : List String
  sleeps : List Nat
  result : Option String
  deriving DecidableEq, Repr

/-- `MaxAttempts` of the stage's retry policy (0 when absent). -/
def stageMaxAttempts (st : StageSpec) : Nat :=
  (st.retryPolicy.map RetryPolicy.maxAttempts).getD 0

/-- `Executor.executeStage` / `Executor.retryStage`, with the worker outcome
injected: `fail = none` means every worker of the stage succeeds, `fail =
some e` means the attempt fails with error `e` (deterministically, each
attempt). A stage with `workerCount = 0` builds no configs, runs neither
manager branch, and therefore succeeds vacuously, exactly as in the source.
`errSoFar` is `stageInfo.Error` (never cleared by the source, so the
`running` event of a retry attempt still carries the previous error);
`retryCount` is `stageInfo.RetryCount`. `gas` bounds the recursion depth
structurally; `executeStage` supplies `gas = maxAttempts - retryCount`,
which makes the exhaustion branch unreachable because `retryStage` both
increments `retryCount` and consumes one unit of gas. -/
def execStageGo (pid : String) (st : StageSpec) (fail : Option String) :
    Nat → String → Nat → StageRun
  | gas, errSoFar, retryCount =>
    let runningEv := mkEv pid st.stageId .running 0 errSoFar
    let pods := (createWorkerConfigs pid st).map WorkerConfig.name
    let res : Option String := if st.workerCount = 0 then none else fail
    match res with
    | none =>
      { events := [runningEv, mkEv pid st.stageId .completed 100 errSoFar]
        podsCreated := pods, sleeps := [], result := none }
    | some e =>
      match st.retryPolicy with
      | none =>
        { events := [runningEv, mkEv pid st.stageId .failed 0 e]
          podsCreated := pods, sleeps := [], result := some e }
      | some rp =>
        if retryCount < rp.maxAttempts then
          match gas with
          | g + 1 =>
            let rest := execStageGo pid st fail g e (retryCount + 1)
            { events := [runningEv, mkEv pid st.stageId .retrying 0 e] ++ rest.events
              podsCreated := pods ++ rest.podsCreated
              sleeps := rp.retryDelaySeconds :: rest.sleeps
              result := rest.result }
          | 0 =>
            { events := [runningEv, mkEv pid st.stageId .failed 0 e]
              podsCreated := pods, sleeps := [], result := some e }
        else
          { events := [runningEv, mkEv pid st.stageId .failed 0 e]
            podsCreated := pods, sleeps := [], result := some e }

/-- The per-stage flow as entered by `executeLevel`: retry count 0, no
previous error. -/
def executeStage (pid : String) (st : StageSpec) (fail : Option String) : StageRun :=
  execStageGo pid st fail (stageMaxAttempts st) "" 0

/-! ## Pipeline-level execution: `Executor.executePipeline` -/

/-- Stage lookup in the executor's stage map (`e.stages[stageID]`). -/
def findStage (sts : List StageSpec) (sid : String) : Option StageSpec :=
  sts.find? (fun s => s.stageId == sid)

/-- Trace of a whole pipeline run. -/
structure PipeRun where
  events : List Ev
  podsCreated : List String
  sleeps : List Nat
  failed : Option String
  deriving DecidableEq, Repr

/-- `Executor.executeLevel`: every stage of the level runs to completion
(the level joins on a WaitGroup before errors are read); the returned error
is the first one received. The concurrent stage runs are determinized to
list order; all properties proved below are insensitive to this order. -/
def runLevel (pid : String) (sts : List StageSpec) (fail : String → Option String)
    (level : List String) : List Ev × List String × List Nat × Option String :=
  level.foldl
    (fun acc sid =>
      match findStage sts sid with
      | none => acc
      | some st =>
        let r := executeStage pid st (fail sid)
        (acc.1 ++ r.events, acc.2.1 ++ r.podsCreated, acc.2.2.1 ++ r.sleeps,
          match acc.2.2.2 with
          | some e => some e
          | none => r.result))
    ([], [], [], none)

/-- The level loop of `executePipeline`: on a level error,
`handlePipelineFailure` marks still-pending stages skipped (no events) and
emits the pipeline-level `failed` event (its `ErrorMessage` proto field is
not set by `sendProgress`); otherwise, after all levels, the pipeline-level
`completed` event is emitted with 100%. -/
def runLevels (pid : String) (sts : List StageSpec) (fail : String → Option String) :
    List (List String) → PipeRun
  | [] => { events := [mkEv pid "" .completed 100 ""], podsCreated := [], sleeps := [],
            failed := none }
  | level :: rest =>
    let r := runLevel pid sts fail level
    match r.2.2.2 with
    | some e =>
      { events := r.1 ++ [mkEv pid "" .failed 0 ""], podsCreated := r.2.1,
        sleeps := r.2.2.1, failed := some e }
    | none =>
      let rr := runLevels pid sts fail rest
      { events := r.1 ++ rr.events, podsCreated := r.2.1 ++ rr.podsCreated,
        sleeps := r.2.2.1 ++ rr.sleeps, failed := rr.failed }

/-- `Executor.executePipeline`: the initial pipeline-level `pending` event,
then the level loop. -/
def executePipelineRun (pid : String) (sts : List StageSpec)
    (order : List (List String)) (fail : String → Option String) : PipeRun :=
  let r := runLevels pid sts fail order
  { r with events := mkEv pid "" .pending 0 "" :: r.events }

/-- `parseStages` builds `e.stages : map[string]*StageInfo` from the request
list; a duplicate stage id overwrites the earlier entry. -/
def mkStageMap (sts : List StageSpec) : List StageSpec :=
  sts.foldl
    (fun acc s =>
      if acc.any (fun t => t.stageId == s.stageId) then
        acc.map (fun t => if t.stageId == s.stageId then s else t)
      else acc ++ [s])
    []

/-- Projection of the stage map to the dependency map `buildExecutionOrder`
iterates. -/
def stageDeps (sts : List StageSpec) : DepMap :=
  sts.map (fun s => (s.stageId, s.dependsOn))

/-- `pb.PipelineRequest`, restricted to the fields the engine reads. -/
structure PReq where
  pipelineId : String
  name : String
  stages : List StageSpec
  deriving DecidableEq, Repr

/-- `Executor.Execute`: parse the stages and build the execution order; on
failure return the error — the background `executePipeline` goroutine is
never launched, so no run trace exists; on success the run proceeds. -/
def executeModel (req : PReq) (fail : String → Option String) : Except String PipeRun :=
  let sts := mkStageMap req.stages
  match buildExecutionOrder (stageDeps sts) with
  | none => .error "circular dependency detected"
  | some order => .ok (executePipelineRun req.pipelineId sts order fail)

/-- Pod creations requested by a call to `Execute`: none when admission
failed (the goroutine that creates pods is only started after a successful
parse). -/
def executeCreatedPods (req : PReq) (fail : String → Option String) : List String :=
  match executeModel req fail with
  | .error _ => []
  | .ok tr => tr.podsCreated

/-! ## RPC surface: `Server.ExecutePipeline` admission and registry -/

/-- Result of one `ExecutePipeline` call, as seen by the gRPC caller. -/
inductive PipeCallResult
  | invalidArgument (msg : String)
  | alreadyExists (msg : String)
  | internalError (msg : String)
  | sendFailed
  | completed
  deriving DecidableEq, Repr

/-- `Server.ExecutePipeline`: validation, duplicate-id check against the
executor registry, insertion, the run (`streamOk` injects whether every
`stream.Send` succeeded), and the deferred registry cleanup that runs on
every exit path after insertion. Returns the call result and the final
registry. -/
def executePipelineCall (registry : List String) (req : Option PReq) (streamOk : Bool) :
    PipeCallResult × List String :=
  match req with
  | none => (.invalidArgument "request cannot be nil", registry)
  | some r =>
    if r.pipelineId = "" then (.invalidArgument "pipeline_id is required", registry)
    else if r.stages = [] then (.invalidArgument "at least one stage is required", registry)
    else if r.pipelineId ∈ registry then
      (.alreadyExists ("pipeline " ++ r.pipelineId ++ " is already running"), registry)
    else
      let reg1 := registry ++ [r.pipelineId]
      let res :=
        match buildExecutionOrder (stageDeps (mkStageMap r.stages)) with
        | none => PipeCallResult.internalError "failed to start pipeline"
        | some _ => if streamOk then PipeCallResult.completed else PipeCallResult.sendFailed
      (res, reg1.erase r.pipelineId)

/-- `true` exactly on the `already_exists` outcome. -/
def PipeCallResult.isAlreadyExists : PipeCallResult → Bool
  | .alreadyExists _ => true
  | _ => false

/-! ## Sanitizers of the scale-up path (`internal/grpc/server.go`) -/

/-- `sanitizeTaskID`: `_` and `.` to `-`, lowercase, truncate to 50.
Go's `strings.ReplaceAll` with a single-character pattern is per-character
replacement, and Go truncates by bytes, which for ASCII coincides with
characters; the embedding works on the character list. -/
def sanitizeTaskID (taskID : String) : String :=
  let s := (taskID.toList.map fun c =>
    if c = '_' then '-' else if c = '.' then '-' else c).map Char.toLower
  (if 50 < s.length then s.take 50 else s).asString

/-- `sanitizeLabel`: truncate to 63, then `/`, `:`, `@` to `-` (same
character-list conventions as `sanitizeTaskID`). -/
def sanitizeLabel (v : String) : String :=
  let t := v.toList
  let t2 := if 63 < t.length then t.take 63 else t
  (t2.map fun c =>
    if c = '/' then '-' else if c = ':' then '-' else if c = '@' then '-' else c).asString

/-! ## The progress channel (`make(chan *pb.PipelineProgress, 100)`) -/

/-- Capacity of the executor's progress channel. -/
def progressChanCapacity : Nat := 100

/-- `sendProgress` / `sendStageProgress` delivery: the non-blocking
`select { case ch <- p: default: }` appends to the buffer when it has room
and otherwise drops the event. The buffer models the queued, undelivered
events at a moment when no receive is pending (the `ExecutePipeline`
consumer may be blocked inside `stream.Send`). -/
def trySend (buf : List Ev) (e : Ev) : List Ev :=
  if buf.length < progressChanCapacity then buf ++ [e] else buf

/-- The pipeline-level emissions of `executePipeline` around an arbitrary
interleaving `stageEvents` of the concurrent stage emissions: the initial
`pending` event into an empty channel, the stage events, then the single
terminal event (`completed` on success, `failed` on failure) — after which
the channel is closed. The result is every event that entered the channel,
i.e. everything the caller can ever receive from this run when the consumer
drains only after the close. -/
def pipelineChannelRun (pid : String) (stageEvents : List Ev) (success : Bool) : List Ev :=
  let b0 := trySend [] (mkEv pid "" .pending 0 "")
  let b1 := stageEvents.foldl trySend b0
  trySend b1 (if success then mkEv pid "" .completed 100 "" else mkEv pid "" .failed 0 "")

/-! ## Invariants and auxiliary notions for the DAG analysis -/

/-- Number of dependencies of the list `ds` that are still live (a key of
the current in-degree map) or that never named an existing stage (such
references are never decremented because only live stages are processed). -/
def liveCount (deps : DepMap) (ks : List String) (ds : List String) : Nat :=
  (ds.filter (fun a => decide (a ∈ ks ∨ ¬ a ∈ keysOf deps))).length

/-- Loop invariant of `buildExecutionOrder`, relating the `inDegree` map to
the `dependencies` map. It holds initially and is preserved by the removal
of every level. -/
structure DegInv (deps : DepMap) (m : GoDegMap) : Prop where
  nodup : m.keys.Nodup
  sub : ∀ k ∈ m.keys, k ∈ keysOf deps
  degEq : ∀ k ∈ m.keys, m.get k = (liveCount deps m.keys (depsOf deps k) : Int)
  dead : ∀ e ∈ deps, ¬ e.1 ∈ m.keys → ∀ a ∈ e.2, ¬ a ∈ m.keys

/-- Total decrement the removal sweep for stage `x` applies to
`inDegree[j]`: one per occurrence of `x` in each `dependencies` entry keyed
by `j`. -/
def totalDec (deps : DepMap) (x j : String) : Int :=
  (deps.map (fun ent =>
    if ent.1 = j then ((ent.2.filter (fun d => decide (d = x))).length : Int) else 0)).sum

/-- The reversed prefix `[g (i+d-1), ..., g (i+1), g i]` of a walk `g`,
used to extract a cycle from a repeating vertex. -/
def walkL (g : Nat → String) (i : Nat) : Nat → List String
  | 0 => []
  | d + 1 => g (i + d) :: walkL g i d

/-! ## Concrete fixtures used by witnesses and counterexamples -/

/-- A stage with an unsanitized id, an uppercase pipeline id around it, and
a label value containing `/`. -/
def exStageRaw : StageSpec :=
  { stageId := "my_stage", name := "build", stageType := "node/build", image := ""
    command := ["sh"], args := [], workerCount := 1, dependsOn := [], retryPolicy := none }

/-- A stage that depends on itself. -/
def exStageSelf : StageSpec :=
  { stageId := "a", name := "a", stageType := "build", image := "img"
    command := [], args := [], workerCount := 1, dependsOn := ["a"], retryPolicy := none }

/-- A retrying stage: 2 retries, 1-second delay, 2 workers. -/
def exStageRetry : StageSpec :=
  { stageId := "test", name := "test", stageType := "test", image := "img"
    command := ["run"], args := [], workerCount := 2, dependsOn := []
    retryPolicy := some { maxAttempts := 2, retryDelaySeconds := 1 } }

/-- A plain single-worker stage with no dependencies. -/
def exStagePlain : StageSpec :=
  { stageId := "build", name := "build", stageType := "build", image := "img"
    command := ["make"], args := [], workerCount := 1, dependsOn := [], retryPolicy := none }

/-- A diamond dependency map: `b` and `c` depend on `a`, `d` on both. -/
def exDiamond : DepMap :=
  [("a", []), ("b", ["a"]), ("c", ["a"]), ("d", ["b", "c"])]

/-- An active session fixture for worker `w1`. -/
def exSession : SessionSt :=
  { sessionId := "w1-100", workerId := "w1", taskId := "t1", logCount := 0,
    errorCount := 0, isActive := true, lastActive := "" }

/-- A valid inbound log entry from `w1`. -/
def exEntry : LogEntryIn :=
  { workerId := "w1", taskId := "t1", message := "hello", timestamp := "", level := "",
    source := "" }

/-- A stage-level progress event used to fill the progress channel. -/
def exStageEv : Ev := mkEv "p" "s" .running 0 ""

/-- A well-formed pipeline request with one plain stage. -/
def exReq : PReq := { pipelineId := "p1", name := "demo", stages := [exStagePlain] }

/-- A pipeline request consisting of the self-dependent stage. -/
def exReqCyclic : PReq := { pipelineId := "p", name := "cyclic", stages := [exStageSelf] }

/-! # Theorems -/

/-! ### Go map embedding: basic lemmas -/

theorem keys_decKey_present (m : GoDegMap) (k : String) (hk : k ∈ m.keys) :
    (decKey m k).keys = m.keys := by
  simp [decKey, hk]

theorem mem_keys_decKey (m : GoDegMap) (k j : String) (hjk : j ≠ k) :
    (j ∈ (decKey m k).keys) ↔ j ∈ m.keys := by
  by_cases h : k ∈ m.keys <;> simp [decKey, h, hjk]

theorem get_decKey (m : GoDegMap) (k j : String) :
    (decKey m k).get j = if j = k then m.get k - 1 else m.get j := by
  simp only [GoDegMap.get, decKey]
  by_cases hjk : j = k <;> by_cases hk : k ∈ m.keys <;>
    simp [hjk, hk]

theorem keys_eraseKey (m : GoDegMap) (k : String) :
    (eraseKey m k).keys = m.keys.filter (fun j => decide (¬ j = k)) := rfl

theorem mem_keys_eraseKey (m : GoDegMap) (k j : String) :
    j ∈ (eraseKey m k).keys ↔ j ∈ m.keys ∧ j ≠ k := by
  simp [eraseKey, List.mem_filter]

theorem get_eraseKey (m : GoDegMap) (k j : String) :
    (eraseKey m k).get j = if j = k then 0 else m.get j := by
  by_cases hjk : j = k
  · subst hjk
    have : ¬ j ∈ (eraseKey m j).keys := by
      simp [mem_keys_eraseKey]
    simp [GoDegMap.get, this]
  · by_cases h : j ∈ m.keys
    · have : j ∈ (eraseKey m k).keys := (mem_keys_eraseKey m k j).mpr ⟨h, hjk⟩
      simp [GoDegMap.get, this, h, hjk, eraseKey]
    · have : ¬ j ∈ (eraseKey m k).keys := fun hc => h ((mem_keys_eraseKey m k j).mp hc).1
      simp [GoDegMap.get, this, h, hjk]

theorem nodup_keys_eraseKey (m : GoDegMap) (k : String) (h : m.keys.Nodup) :
    (eraseKey m k).keys.Nodup := by
  rw [keys_eraseKey]; exact h.filter _

/-! ### The removal sweep of `buildExecutionOrder` -/

theorem foldDecKey_spec (x k : String) (ds : List String) :
    ∀ (m : GoDegMap), (x ∈ ds → k ∈ m.keys) →
      (ds.foldl (fun acc d => if d = x then decKey acc k else acc) m).keys = m.keys ∧
      ∀ j, (ds.foldl (fun acc d => if d = x then decKey acc k else acc) m).get j =
        m.get j - (if k = j then ((ds.filter (fun d => decide (d = x))).length : Int) else 0) := by
  induction ds with
  | nil => intro m hp; simp
  | cons d ds ih =>
    intro m hp
    by_cases hdx : d = x
    · have hk : k ∈ m.keys := hp (by simp [hdx])
      have hkeys1 : (decKey m k).keys = m.keys := keys_decKey_present m k hk
      have h1 := ih (decKey m k) (fun _ => by rw [hkeys1]; exact hk)
      have hc : decide (d = x) = true := by simp [hdx]
      constructor
      · rw [List.foldl_cons, if_pos hdx, h1.1, hkeys1]
      · intro j
        rw [List.foldl_cons, if_pos hdx, h1.2 j, get_decKey, List.filter_cons, if_pos hc,
          List.length_cons]
        by_cases hkj : k = j
        · subst hkj
          rw [if_pos rfl, if_pos rfl, if_pos rfl]
          push_cast
          ring
        · have hjk : ¬ j = k := fun h => hkj h.symm
          rw [if_neg hkj, if_neg hkj, if_neg hjk]
    · have h1 := ih m (fun hx => hp (List.mem_cons_of_mem _ hx))
      have hc : ¬ decide (d = x) = true := by simp [hdx]
      constructor
      · rw [List.foldl_cons, if_neg hdx]
        exact h1.1
      · intro j
        rw [List.foldl_cons, if_neg hdx, h1.2 j, List.filter_cons, if_neg hc]

theorem decForDeps_spec (x : String) (ent : String × List String) (m : GoDegMap)
    (hp : x ∈ ent.2 → ent.1 ∈ m.keys) :
    (decForDeps x m ent).keys = m.keys ∧
    ∀ j, (decForDeps x m ent).get j =
      m.get j - (if ent.1 = j then ((ent.2.filter (fun d => decide (d = x))).length : Int) else 0) :=
  foldDecKey_spec x ent.1 ent.2 m hp

theorem totalDec_cons (ent : String × List String) (deps : DepMap) (x j : String) :
    totalDec (ent :: deps) x j =
      (if ent.1 = j then ((ent.2.filter (fun d => decide (d = x))).length : Int) else 0) +
        totalDec deps x j := by
  simp [totalDec]

theorem foldDeps_spec (x : String) (deps : DepMap) :
    ∀ (m : GoDegMap), (∀ ent ∈ deps, x ∈ ent.2 → ent.1 ∈ m.keys) →
      (deps.foldl (decForDeps x) m).keys = m.keys ∧
      ∀ j, (deps.foldl (decForDeps x) m).get j = m.get j - totalDec deps x j := by
  induction deps with
  | nil => intro m hp; simp [totalDec]
  | cons ent deps ih =>
    intro m hp
    have h1 := decForDeps_spec x ent m (hp ent (by simp))
    have h2 := ih (decForDeps x m ent)
      (fun e he hx => by rw [h1.1]; exact hp e (List.mem_cons_of_mem _ he) hx)
    constructor
    · simp only [List.foldl_cons]
      rw [h2.1, h1.1]
    · intro j
      simp only [List.foldl_cons]
      rw [h2.2 j, h1.2 j, totalDec_cons]
      ring

theorem processStage_char (deps : DepMap) (m : GoDegMap) (x : String)
    (hp : ∀ ent ∈ deps, x ∈ ent.2 → ent.1 ∈ (eraseKey m x).keys) :
    (processStage deps m x).keys = (eraseKey m x).keys ∧
    ∀ j, (processStage deps m x).get j = (eraseKey m x).get j - totalDec deps x j :=
  foldDeps_spec x deps (eraseKey m x) hp

theorem totalDec_of_not_key (deps : DepMap) (x j : String) (h : ¬ j ∈ keysOf deps) :
    totalDec deps x j = 0 := by
  induction deps with
  | nil => simp [totalDec]
  | cons ent deps ih =>
    simp only [keysOf, List.map_cons, List.mem_cons, not_or] at h
    rw [totalDec_cons, if_neg (fun he => h.1 he.symm), zero_add]
    exact ih h.2

theorem depsOf_cons_self (ent : String × List String) (deps : DepMap) (j : String)
    (h : ent.1 = j) : depsOf (ent :: deps) j = ent.2 := by
  unfold depsOf
  rw [List.find?_cons_of_pos _ (by simp [h])]

theorem depsOf_cons_ne (ent : String × List String) (deps : DepMap) (j : String)
    (h : ¬ ent.1 = j) : depsOf (ent :: deps) j = depsOf deps j := by
  unfold depsOf
  rw [List.find?_cons_of_neg _ (by simp [h])]

theorem totalDec_nodup (deps : DepMap) (hd : (keysOf deps).Nodup) (x j : String)
    (hj : j ∈ keysOf deps) :
    totalDec deps x j = (((depsOf deps j).filter (fun d => decide (d = x))).length : Int) := by
  induction deps with
  | nil => simp [keysOf] at hj
  | cons ent deps ih =>
    rw [totalDec_cons]
    simp only [keysOf, List.map_cons, List.nodup_cons] at hd
    by_cases hej : ent.1 = j
    · rw [if_pos hej, totalDec_of_not_key deps x j (by rw [← hej]; exact hd.1), add_zero,
        depsOf_cons_self ent deps j hej]
    · have hj' : j ∈ keysOf deps := by
        simp only [keysOf, List.map_cons, List.mem_cons] at hj
        rcases hj with h | h
        · exact absurd h.symm hej
        · exact h
      rw [if_neg hej, zero_add, depsOf_cons_ne ent deps j hej, ih hd.2 hj']

theorem length_filter_split (ds : List String) (P Q : String → Prop) [DecidablePred P]
    [DecidablePred Q] (x : String) (hx : P x) (hQ : ∀ a, Q a ↔ P a ∧ ¬ a = x) :
    (ds.filter (fun a => decide (P a))).length =
      (ds.filter (fun a => decide (Q a))).length +
        (ds.filter (fun d => decide (d = x))).length := by
  induction ds with
  | nil => simp
  | cons a ds ih =>
    by_cases hax : a = x
    · have h1 : P a := by rw [hax]; exact hx
      have h2 : ¬ Q a := fun hq => ((hQ a).mp hq).2 hax
      have hc1 : decide (P a) = true := by simp [h1]
      have hc2 : ¬ decide (Q a) = true := by simp [h2]
      have hc3 : decide (a = x) = true := by simp [hax]
      rw [List.filter_cons, if_pos hc1, List.filter_cons, if_neg hc2,
        List.filter_cons, if_pos hc3, List.length_cons, List.length_cons]
      omega
    · by_cases hp : P a
      · have h2 : Q a := (hQ a).mpr ⟨hp, hax⟩
        have hc1 : decide (P a) = true := by simp [hp]
        have hc2 : decide (Q a) = true := by simp [h2]
        have hc3 : ¬ decide (a = x) = true := by simp [hax]
        rw [List.filter_cons, if_pos hc1, List.filter_cons, if_pos hc2,
          List.filter_cons, if_neg hc3, List.length_cons, List.length_cons]
        omega
      · have h2 : ¬ Q a := fun hq => hp ((hQ a).mp hq).1
        have hc1 : ¬ decide (P a) = true := by simp [hp]
        have hc2 : ¬ decide (Q a) = true := by simp [h2]
        have hc3 : ¬ decide (a = x) = true := by simp [hax]
        rw [List.filter_cons, if_neg hc1, List.filter_cons, if_neg hc2,
          List.filter_cons, if_neg hc3]
        exact ih

theorem length_filter_mono (l : List String) (p q : String → Bool)
    (h : ∀ a ∈ l, p a = true → q a = true) :
    (l.filter p).length ≤ (l.filter q).length := by
  induction l with
  | nil => simp
  | cons a l ih =>
    have ih' := ih (fun a ha => h a (List.mem_cons_of_mem _ ha))
    by_cases hp : p a = true
    · rw [List.filter_cons, if_pos hp, List.filter_cons, if_pos (h a (by simp) hp)]
      simpa using ih'
    · rw [List.filter_cons, if_neg hp]
      by_cases hq : q a = true
      · rw [List.filter_cons, if_pos hq]
        exact le_trans ih' (by simp)
      · rw [List.filter_cons, if_neg hq]
        exact ih'

/-! ### The loop invariant and its preservation -/

theorem mem_keysOf_of_mem (deps : DepMap) (ent : String × List String) (h : ent ∈ deps) :
    ent.1 ∈ keysOf deps := List.mem_map_of_mem _ h

theorem depsOf_eq_of_mem_nodup (deps : DepMap) (hd : (keysOf deps).Nodup)
    (ent : String × List String) (h : ent ∈ deps) : depsOf deps ent.1 = ent.2 := by
  induction deps with
  | nil => cases h
  | cons e deps ih =>
    simp only [keysOf, List.map_cons, List.nodup_cons] at hd
    rcases List.mem_cons.mp h with he | he
    · subst he
      exact depsOf_cons_self ent deps ent.1 rfl
    · have hne : ¬ e.1 = ent.1 := by
        intro hc
        exact hd.1 (hc ▸ mem_keysOf_of_mem deps ent he)
      rw [depsOf_cons_ne e deps ent.1 hne]
      exact ih hd.2 he

theorem mem_zeroLevel (m : GoDegMap) (k : String) :
    k ∈ zeroLevel m ↔ k ∈ m.keys ∧ m.get k = 0 := by
  simp [zeroLevel, List.mem_filter]

theorem zeroLevel_nodup (m : GoDegMap) (h : m.keys.Nodup) : (zeroLevel m).Nodup :=
  h.filter _

theorem liveCount_mono (deps : DepMap) (ks1 ks2 ds : List String)
    (h : ∀ a, a ∈ ks1 → a ∈ ks2) : liveCount deps ks1 ds ≤ liveCount deps ks2 ds := by
  apply length_filter_mono
  intro a ha hp
  simp only [decide_eq_true_eq] at hp ⊢
  rcases hp with h1 | h1
  · exact Or.inl (h a h1)
  · exact Or.inr h1

theorem liveCount_eq_zero_iff (deps : DepMap) (ks ds : List String) :
    liveCount deps ks ds = 0 ↔ ∀ a ∈ ds, ¬ a ∈ ks ∧ a ∈ keysOf deps := by
  unfold liveCount
  rw [List.length_eq_zero, List.filter_eq_nil]
  constructor
  · intro h a ha
    have := h a ha
    simp only [decide_eq_true_eq, not_or, not_not] at this
    exact this
  · intro h a ha
    simp only [decide_eq_true_eq, not_or, not_not]
    exact h a ha

theorem liveCount_pos (deps : DepMap) (ks ds : List String) (a : String) (ha : a ∈ ds)
    (h : a ∈ ks ∨ ¬ a ∈ keysOf deps) : 0 < liveCount deps ks ds := by
  unfold liveCount
  exact List.length_pos_of_mem (List.mem_filter.mpr ⟨ha, by simp only [decide_eq_true_eq]; exact h⟩)

theorem processStage_spec (deps : DepMap) (hd : (keysOf deps).Nodup) (m : GoDegMap)
    (hinv : DegInv deps m) (x : String) (hx : x ∈ m.keys) (hx0 : m.get x = 0) :
    DegInv deps (processStage deps m x) ∧
    (processStage deps m x).keys = m.keys.filter (fun j => decide (¬ j = x)) := by
  -- the processed stage has no counted dependency left
  have hlive0 : liveCount deps m.keys (depsOf deps x) = 0 := by
    have := hinv.degEq x hx
    rw [hx0] at this
    exact_mod_cast this.symm
  have hnone := (liveCount_eq_zero_iff deps m.keys (depsOf deps x)).mp hlive0
  -- every decrement target is still present after erasing x
  have hp : ∀ ent ∈ deps, x ∈ ent.2 → ent.1 ∈ (eraseKey m x).keys := by
    intro ent hent hxent
    have h1 : ent.1 ∈ m.keys := by
      by_contra hc
      exact (hinv.dead ent hent hc x hxent) hx
    have h2 : ¬ ent.1 = x := by
      intro hc
      have hdx : depsOf deps x = ent.2 := by
        rw [← hc]; exact depsOf_eq_of_mem_nodup deps hd ent hent
      have := hnone x (hdx ▸ hxent)
      exact this.1 hx
    exact (mem_keys_eraseKey m x ent.1).mpr ⟨h1, h2⟩
  have hchar := processStage_char deps m x hp
  have hkeys : (processStage deps m x).keys = m.keys.filter (fun j => decide (¬ j = x)) := by
    rw [hchar.1, keys_eraseKey]
  have hmem' : ∀ j, j ∈ (processStage deps m x).keys ↔ j ∈ m.keys ∧ ¬ j = x := by
    intro j
    rw [hchar.1]
    exact mem_keys_eraseKey m x j
  refine ⟨⟨?_, ?_, ?_, ?_⟩, hkeys⟩
  · rw [hkeys]; exact hinv.nodup.filter _
  · intro k hk
    exact hinv.sub k ((hmem' k).mp hk).1
  · intro k hk
    have hk1 := (hmem' k).mp hk
    have hget : (processStage deps m x).get k = m.get k - totalDec deps x k := by
      rw [hchar.2 k, get_eraseKey, if_neg hk1.2]
    have htd : totalDec deps x k =
        (((depsOf deps k).filter (fun d => decide (d = x))).length : Int) :=
      totalDec_nodup deps hd x k (hinv.sub k hk1.1)
    have hsplit := length_filter_split (depsOf deps k)
      (fun a => a ∈ m.keys ∨ ¬ a ∈ keysOf deps)
      (fun a => a ∈ (processStage deps m x).keys ∨ ¬ a ∈ keysOf deps) x
      (Or.inl hx)
      (by
        intro a
        constructor
        · rintro (h1 | h1)
          · have := (hmem' a).mp h1
            exact ⟨Or.inl this.1, this.2⟩
          · refine ⟨Or.inr h1, ?_⟩
            intro hc
            exact h1 (hc ▸ hinv.sub x hx)
        · rintro ⟨h1 | h1, h2⟩
          · exact Or.inl ((hmem' a).mpr ⟨h1, h2⟩)
          · exact Or.inr h1)
    have hdegk := hinv.degEq k hk1.1
    rw [hget, hdegk, htd]
    unfold liveCount at hsplit ⊢
    rw [hsplit]
    push_cast
    ring
  · intro ent hent hdead a ha
    rw [hmem' a]
    by_cases h1 : ent.1 ∈ m.keys
    · have hex : ent.1 = x := by
        by_contra hc
        exact hdead ((hmem' ent.1).mpr ⟨h1, hc⟩)
      have hdx : depsOf deps x = ent.2 := by
        rw [← hex]; exact depsOf_eq_of_mem_nodup deps hd ent hent
      intro hc
      exact (hnone a (hdx ▸ ha)).1 hc.1
    · intro hc
      exact (hinv.dead ent hent h1 a ha) hc.1

theorem processLevel_spec (deps : DepMap) (hd : (keysOf deps).Nodup) :
    ∀ (level : List String) (m : GoDegMap), DegInv deps m → level.Nodup →
      (∀ x ∈ level, x ∈ m.keys ∧ m.get x = 0) →
      DegInv deps (processLevel deps m level) ∧
      (processLevel deps m level).keys = m.keys.filter (fun j => decide (¬ j ∈ level)) := by
  intro level
  induction level with
  | nil =>
    intro m hinv hnd hmem
    refine ⟨hinv, ?_⟩
    have : ∀ j ∈ m.keys, decide (¬ j ∈ ([] : List String)) = true := by simp
    rw [processLevel, List.foldl_nil, List.filter_eq_self.mpr this]
  | cons x level ih =>
    intro m hinv hnd hmem
    simp only [List.nodup_cons] at hnd
    have hx := hmem x (by simp)
    have h1 := processStage_spec deps hd m hinv x hx.1 hx.2
    set m1 := processStage deps m x with hm1
    have hmem1 : ∀ y ∈ level, y ∈ m1.keys ∧ m1.get y = 0 := by
      intro y hy
      have hym := hmem y (List.mem_cons_of_mem _ hy)
      have hyx : ¬ y = x := fun hc => hnd.1 (hc ▸ hy)
      have hykeys : y ∈ m1.keys := by
        rw [h1.2]
        exact List.mem_filter.mpr ⟨hym.1, by simp [hyx]⟩
      refine ⟨hykeys, ?_⟩
      -- the remaining level members keep in-degree 0: their live-dependency
      -- count can only shrink
      have hz : liveCount deps m.keys (depsOf deps y) = 0 := by
        have := hinv.degEq y hym.1
        rw [hym.2] at this
        exact_mod_cast this.symm
      have hmono : liveCount deps m1.keys (depsOf deps y) ≤
          liveCount deps m.keys (depsOf deps y) := by
        apply liveCount_mono
        intro a ha
        rw [h1.2] at ha
        exact (List.mem_filter.mp ha).1
      have : liveCount deps m1.keys (depsOf deps y) = 0 := by omega
      rw [h1.1.degEq y hykeys, this]
      rfl
    have h2 := ih m1 h1.1 hnd.2 hmem1
    refine ⟨h2.1, ?_⟩
    have heq : processLevel deps m (x :: level) = processLevel deps m1 level := by
      rw [processLevel, List.foldl_cons]
      rfl
    rw [heq, h2.2, h1.2, List.filter_filter]
    apply List.filter_congr
    intro j hj
    simp only [List.mem_cons, not_or, Bool.decide_and]
    exact Bool.and_comm _ _

/-! ### Counting lemmas for the `remaining` bookkeeping -/

theorem length_filter_not_add (l : List String) (p : String → Bool) :
    (l.filter p).length + (l.filter (fun a => ! p a)).length = l.length := by
  induction l with
  | nil => simp
  | cons a l ih =>
    by_cases hp : p a = true
    · have hnp : ¬ (! p a) = true := by simp [hp]
      rw [List.filter_cons, if_pos hp, List.filter_cons, if_neg hnp, List.length_cons,
        List.length_cons]
      omega
    · have hnp : (! p a) = true := by simp [hp]
      rw [List.filter_cons, if_neg hp, List.filter_cons, if_pos hnp, List.length_cons,
        List.length_cons]
      omega

theorem length_filter_eq_single (l : List String) (x : String) (hnd : l.Nodup) (hx : x ∈ l) :
    (l.filter (fun j => decide (j = x))).length = 1 := by
  induction l with
  | nil => cases hx
  | cons a l ih =>
    simp only [List.nodup_cons] at hnd
    by_cases hax : a = x
    · have hc : decide (a = x) = true := by simp [hax]
      rw [List.filter_cons, if_pos hc, List.length_cons]
      have hzero : (l.filter (fun j => decide (j = x))).length = 0 := by
        rw [List.length_eq_zero, List.filter_eq_nil_iff]
        intro b hb
        simp only [decide_eq_true_eq]
        intro hbx
        have : a ∈ l := by rw [hax, ← hbx]; exact hb
        exact hnd.1 this
      omega
    · have hc : ¬ decide (a = x) = true := by simp [hax]
      rw [List.filter_cons, if_neg hc]
      rcases List.mem_cons.mp hx with h | h
      · exact absurd h.symm hax
      · exact ih hnd.2 h

theorem length_filter_mem_eq (ks : List String) (hk : ks.Nodup) :
    ∀ level : List String, level.Nodup → (∀ x ∈ level, x ∈ ks) →
      (ks.filter (fun j => decide (j ∈ level))).length = level.length := by
  intro level
  induction level with
  | nil => intro _ _; simp
  | cons x lv ih =>
    intro hl hsub
    simp only [List.nodup_cons] at hl
    have hsplit := length_filter_split ks (fun j => j ∈ x :: lv) (fun j => j ∈ lv) x
      (by simp)
      (by
        intro a
        constructor
        · intro ha
          exact ⟨List.mem_cons_of_mem _ ha, fun hc => hl.1 (hc ▸ ha)⟩
        · rintro ⟨ha, hne⟩
          rcases List.mem_cons.mp ha with h | h
          · exact absurd h hne
          · exact h)
    rw [hsplit, ih hl.2 (fun y hy => hsub y (List.mem_cons_of_mem _ hy)),
      length_filter_eq_single ks x hk (hsub x (by simp)), List.length_cons]

theorem length_filter_not_mem_of_nodup (ks level : List String) (hk : ks.Nodup)
    (hl : level.Nodup) (hsub : ∀ x ∈ level, x ∈ ks) :
    (ks.filter (fun j => decide (¬ j ∈ level))).length = ks.length - level.length := by
  have h1 := length_filter_not_add ks (fun j => decide (j ∈ level))
  have h2 := length_filter_mem_eq ks hk level hl hsub
  have h3 : ks.filter (fun a => ! decide (a ∈ level)) =
      ks.filter (fun j => decide (¬ j ∈ level)) := by
    apply List.filter_congr
    intro a _
    simp [decide_not]
  rw [h3] at h1
  omega

/-! ### The initial in-degree map satisfies the invariant -/

theorem degInv_init (deps : DepMap) (hd : (keysOf deps).Nodup) :
    DegInv deps (initDegMap deps) := by
  refine ⟨hd, fun k hk => hk, ?_, ?_⟩
  · intro k hk
    have hget : (initDegMap deps).get k = ((depsOf deps k).length : Int) := by
      unfold GoDegMap.get
      rw [if_pos hk]
      rfl
    rw [hget]
    have : (depsOf deps k).filter
        (fun a => decide (a ∈ (initDegMap deps).keys ∨ ¬ a ∈ keysOf deps)) =
        depsOf deps k := by
      rw [List.filter_eq_self]
      intro a ha
      simp only [decide_eq_true_eq]
      by_cases h : a ∈ keysOf deps
      · exact Or.inl h
      · exact Or.inr h
    unfold liveCount
    rw [this]
  · intro ent hent hdead
    exact absurd (mem_keysOf_of_mem deps ent hent) hdead

/-! ### Dependency references and keys -/

theorem key_of_depsOf_mem (deps : DepMap) (a b : String) (h : a ∈ depsOf deps b) :
    b ∈ keysOf deps := by
  unfold depsOf at h
  cases hf : deps.find? (fun e => e.1 == b) with
  | none => rw [hf] at h; cases h
  | some e =>
    rw [hf] at h
    have he := List.mem_of_find?_eq_some hf
    have hb := List.find?_some hf
    simp only [beq_iff_eq] at hb
    rw [← hb]
    exact mem_keysOf_of_mem deps e he

theorem allPresent_depsOf (deps : DepMap) (hall : AllPresent deps) (a b : String)
    (h : a ∈ depsOf deps b) : a ∈ keysOf deps := by
  unfold depsOf at h
  cases hf : deps.find? (fun e => e.1 == b) with
  | none => rw [hf] at h; cases h
  | some e =>
    rw [hf] at h
    exact hall e (List.mem_of_find?_eq_some hf) a h

/-! ### Cycles: chains, cyclic vertex sets, pigeonhole -/

theorem chain_pred_mem (R : String → String → Prop) :
    ∀ (l : List String) (x z : String), List.Chain R x (l ++ [z]) →
      ∀ b ∈ l ++ [z], ∃ a ∈ x :: l, R a b := by
  intro l
  induction l with
  | nil =>
    intro x z hch b hb
    simp only [List.nil_append, List.mem_singleton] at hb
    subst hb
    cases hch with
    | cons h _ => exact ⟨x, by simp, h⟩
  | cons c l ih =>
    intro x z hch b hb
    rw [List.cons_append] at hch
    cases hch with
    | cons hxc hch2 =>
      rcases List.mem_cons.mp hb with hbc | hb2
      · subst hbc
        exact ⟨x, by simp, hxc⟩
      · obtain ⟨a, ha, har⟩ := ih c z hch2 b hb2
        refine ⟨a, ?_, har⟩
        rcases List.mem_cons.mp ha with h | h
        · simp [h]
        · simp [List.mem_cons_of_mem, h]

/-- Every vertex on a dependency cycle has a predecessor on the cycle, and
every such vertex is a key of the map. -/
theorem cycset_of_cycle (deps : DepMap) (hc : CycleIn deps) :
    ∃ ids : List String, ids ≠ [] ∧ (∀ b ∈ ids, ∃ a ∈ ids, DepEdge deps a b) ∧
      (∀ b ∈ ids, b ∈ keysOf deps) := by
  obtain ⟨x, l, hch⟩ := hc
  have hmemiff : ∀ b, b ∈ x :: l ↔ b ∈ l ++ [x] := by
    intro b
    simp only [List.mem_cons, List.mem_append, List.mem_singleton]
    tauto
  have hpred : ∀ b ∈ x :: l, ∃ a ∈ x :: l, DepEdge deps a b := by
    intro b hb
    exact chain_pred_mem (DepEdge deps) l x x hch b ((hmemiff b).mp hb)
  refine ⟨x :: l, by simp, hpred, ?_⟩
  intro b hb
  obtain ⟨a, _, har⟩ := hpred b hb
  exact key_of_depsOf_mem deps a b har

theorem chain_walkL (deps : DepMap) (g : Nat → String)
    (hedge : ∀ n, DepEdge deps (g (n + 1)) (g n)) (i : Nat) :
    ∀ d : Nat, List.Chain (DepEdge deps) (g (i + d)) (walkL g i d) := by
  intro d
  induction d with
  | zero => exact List.Chain.nil
  | succ d ihd =>
    have h1 : i + (d + 1) = (i + d) + 1 := by omega
    refine List.Chain.cons ?_ ihd
    rw [h1]
    exact hedge (i + d)

theorem walkL_eq_append (g : Nat → String) (i : Nat) :
    ∀ d : Nat, 0 < d → ∃ l : List String, walkL g i d = l ++ [g i] := by
  intro d
  induction d with
  | zero => intro h; omega
  | succ d ihd =>
    intro _
    cases Nat.eq_zero_or_pos d with
    | inl h0 => exact ⟨[], by simp [h0, walkL]⟩
    | inr hpos =>
      obtain ⟨l, hl⟩ := ihd hpos
      exact ⟨g (i + d) :: l, by simp [walkL, hl]⟩

/-- A nonempty vertex set in which every vertex has a predecessor contains a
directed cycle (pigeonhole on a backwards walk). -/
theorem cycle_of_cycset (deps : DepMap) (ids : List String) (hne : ids ≠ [])
    (hpred : ∀ b ∈ ids, ∃ a ∈ ids, DepEdge deps a b) : CycleIn deps := by
  classical
  have hch : ∀ b, ∃ a, b ∈ ids → a ∈ ids ∧ DepEdge deps a b := by
    intro b
    by_cases hb : b ∈ ids
    · obtain ⟨a, ha, har⟩ := hpred b hb
      exact ⟨a, fun _ => ⟨ha, har⟩⟩
    · exact ⟨b, fun hc => absurd hc hb⟩
  choose f hf using hch
  let g : Nat → String := fun n => f^[n] (ids.head hne)
  have hgsucc : ∀ n, g (n + 1) = f (g n) := by
    intro n
    simp only [g, Function.iterate_succ_apply']
  have hmem : ∀ n, g n ∈ ids := by
    intro n
    induction n with
    | zero => simpa [g] using List.head_mem hne
    | succ n ihn =>
      rw [hgsucc n]
      exact (hf (g n) ihn).1
  have hedge : ∀ n, DepEdge deps (g (n + 1)) (g n) := by
    intro n
    rw [hgsucc n]
    exact (hf (g n) (hmem n)).2
  obtain ⟨i, hi, j, hj, hij, heq⟩ :
      ∃ i ∈ Finset.range (ids.length + 1), ∃ j ∈ Finset.range (ids.length + 1),
        i ≠ j ∧ g i = g j := by
    apply Finset.exists_ne_map_eq_of_card_lt_of_maps_to
    · rw [Finset.card_range]
      exact Nat.lt_succ_of_le (List.toFinset_card_le ids)
    · intro n _
      exact List.mem_toFinset.mpr (hmem n)
  -- without loss of generality the earlier index comes first
  rcases Nat.lt_or_ge i j with hlt | hge
  · obtain ⟨l, hl⟩ := walkL_eq_append g i (j - i) (by omega)
    have hchain := chain_walkL deps g hedge i (j - i)
    rw [show i + (j - i) = j by omega, hl, ← heq] at hchain
    exact ⟨g i, l, hchain⟩
  · have hlt2 : j < i := by omega
    obtain ⟨l, hl⟩ := walkL_eq_append g j (i - j) (by omega)
    have hchain := chain_walkL deps g hedge j (i - j)
    rw [show j + (i - j) = i by omega, hl, heq] at hchain
    exact ⟨g j, l, hchain⟩

/-! ### Unfolding equations and step facts for the topological-sort loop -/

theorem bEOLoop_zero_r (deps : DepMap) (fuel : Nat) (m : GoDegMap) :
    bEOLoop deps fuel 0 m = some [] := by
  cases fuel <;> rfl

theorem bEOLoop_succ (deps : DepMap) (fuel r : Nat) (m : GoDegMap) :
    bEOLoop deps (fuel + 1) (r + 1) m =
      if zeroLevel m = [] then none
      else
        match bEOLoop deps fuel (r + 1 - (zeroLevel m).length)
            (processLevel deps m (zeroLevel m)) with
        | none => none
        | some rest => some (zeroLevel m :: rest) := rfl

theorem bEOLoop_step_facts (deps : DepMap) (hd : (keysOf deps).Nodup) (m : GoDegMap)
    (hinv : DegInv deps m) (hne : zeroLevel m ≠ []) :
    DegInv deps (processLevel deps m (zeroLevel m)) ∧
    (∀ k, k ∈ (processLevel deps m (zeroLevel m)).keys ↔ k ∈ m.keys ∧ ¬ k ∈ zeroLevel m) ∧
    (processLevel deps m (zeroLevel m)).keys.length = m.keys.length - (zeroLevel m).length ∧
    1 ≤ (zeroLevel m).length ∧ (zeroLevel m).length ≤ m.keys.length := by
  have hmemlev : ∀ x ∈ zeroLevel m, x ∈ m.keys ∧ m.get x = 0 :=
    fun x hx => (mem_zeroLevel m x).mp hx
  have hnd := zeroLevel_nodup m hinv.nodup
  have hpl := processLevel_spec deps hd (zeroLevel m) m hinv hnd hmemlev
  refine ⟨hpl.1, ?_, ?_, ?_, ?_⟩
  · intro k
    rw [hpl.2, List.mem_filter]
    simp only [decide_eq_true_eq]
  · rw [hpl.2]
    exact length_filter_not_mem_of_nodup m.keys (zeroLevel m) hinv.nodup hnd
      (fun x hx => (hmemlev x hx).1)
  · have := List.length_pos.mpr hne
    omega
  · unfold zeroLevel
    exact List.length_filter_le _ _

theorem zeroLevel_no_live_dep (deps : DepMap) (m : GoDegMap) (hinv : DegInv deps m) :
    ∀ b ∈ zeroLevel m, ∀ a, DepEdge deps a b → ¬ a ∈ m.keys := by
  intro b hb a hedge ha
  obtain ⟨hbk, hb0⟩ := (mem_zeroLevel m b).mp hb
  have hlz : liveCount deps m.keys (depsOf deps b) = 0 := by
    have := hinv.degEq b hbk
    rw [hb0] at this
    exact_mod_cast this.symm
  exact ((liveCount_eq_zero_iff deps m.keys (depsOf deps b)).mp hlz a hedge).1 ha

/-! ### The loop computes a correct level decomposition -/

theorem bEOLoop_sound (deps : DepMap) (hd : (keysOf deps).Nodup) :
    ∀ (fuel : Nat) (m : GoDegMap), DegInv deps m → m.keys.length ≤ fuel →
      ∀ order, bEOLoop deps fuel m.keys.length m = some order →
      (∀ k, k ∈ order.join ↔ k ∈ m.keys) ∧ order.join.Nodup ∧
      (∀ L ∈ order, ∀ b ∈ L, ∀ a ∈ L, ¬ DepEdge deps a b) ∧
      (∀ j, ∀ hj : j < order.length, ∀ b ∈ order[j], ∀ a, DepEdge deps a b →
        a ∈ m.keys → ∃ i, ∃ hi : i < order.length, i < j ∧ a ∈ order[i]) := by
  intro fuel
  induction fuel with
  | zero =>
    intro m hinv hle order hsome
    have h0 : m.keys.length = 0 := Nat.le_zero.mp hle
    have hkeys : m.keys = [] := List.length_eq_zero.mp h0
    rw [h0, bEOLoop_zero_r] at hsome
    have horder : order = [] := (Option.some.inj hsome).symm
    subst horder
    refine ⟨by intro k; simp [hkeys], by simp, by simp, ?_⟩
    intro j hj
    simp at hj
  | succ fuel ih =>
    intro m hinv hle order hsome
    cases hr : m.keys.length with
    | zero =>
      have hkeys : m.keys = [] := List.length_eq_zero.mp hr
      rw [hr, bEOLoop_zero_r] at hsome
      have horder : order = [] := (Option.some.inj hsome).symm
      subst horder
      refine ⟨by intro k; simp [hkeys], by simp, by simp, ?_⟩
      intro j hj
      simp at hj
    | succ r =>
      rw [hr, bEOLoop_succ] at hsome
      by_cases hempty : zeroLevel m = []
      · rw [if_pos hempty] at hsome; cases hsome
      · rw [if_neg hempty] at hsome
        obtain ⟨hinv2, hmem2, hlen2, hpos2, hle2⟩ := bEOLoop_step_facts deps hd m hinv hempty
        have hr2 : r + 1 - (zeroLevel m).length =
            (processLevel deps m (zeroLevel m)).keys.length := by
          rw [hlen2, hr]
        rw [hr2] at hsome
        cases hrec : bEOLoop deps fuel (processLevel deps m (zeroLevel m)).keys.length
            (processLevel deps m (zeroLevel m)) with
        | none => rw [hrec] at hsome; cases hsome
        | some rest =>
          rw [hrec] at hsome
          simp only [Option.some.injEq] at hsome
          subst hsome
          have hbound : (processLevel deps m (zeroLevel m)).keys.length ≤ fuel := by
            rw [hlen2, hr]
            omega
          have IH := ih (processLevel deps m (zeroLevel m)) hinv2 hbound rest hrec
          have hmemlev : ∀ x ∈ zeroLevel m, x ∈ m.keys ∧ m.get x = 0 :=
            fun x hx => (mem_zeroLevel m x).mp hx
          have hnolive := zeroLevel_no_live_dep deps m hinv
          refine ⟨?_, ?_, ?_, ?_⟩
          · intro k
            have hshow : k ∈ (zeroLevel m :: rest).join ↔ k ∈ zeroLevel m ∨ k ∈ rest.join := by
              show k ∈ zeroLevel m ++ rest.join ↔ _
              exact List.mem_append
            rw [hshow]
            constructor
            · rintro (h | h)
              · exact (hmemlev k h).1
              · exact ((hmem2 k).mp ((IH.1 k).mp h)).1
            · intro hk
              by_cases hkl : k ∈ zeroLevel m
              · exact Or.inl hkl
              · exact Or.inr ((IH.1 k).mpr ((hmem2 k).mpr ⟨hk, hkl⟩))
          · show ((zeroLevel m) ++ rest.join).Nodup
            rw [List.nodup_append]
            refine ⟨zeroLevel_nodup m hinv.nodup, IH.2.1, ?_⟩
            intro a ha hb
            exact ((hmem2 a).mp ((IH.1 a).mp hb)).2 ha
          · intro L hL b hb a ha hedge
            rcases List.mem_cons.mp hL with h | h
            · subst h
              exact hnolive b hb a hedge (hmemlev a ha).1
            · exact IH.2.2.1 L h b hb a ha hedge
          · intro j hj b hb a hedge ha
            cases j with
            | zero =>
              rw [List.getElem_cons_zero] at hb
              exact absurd ha (hnolive b hb a hedge)
            | succ j2 =>
              have hj2 : j2 < rest.length := by
                simpa using hj
              rw [List.getElem_cons_succ] at hb
              by_cases ham : a ∈ (processLevel deps m (zeroLevel m)).keys
              · obtain ⟨i2, hi2, hlt2, hmem3⟩ := IH.2.2.2 j2 hj2 b hb a hedge ham
                refine ⟨i2 + 1, Nat.succ_lt_succ hi2, Nat.succ_lt_succ hlt2, ?_⟩
                rw [List.getElem_cons_succ]
                exact hmem3
              · have haz : a ∈ zeroLevel m := by
                  by_contra hc
                  exact ham ((hmem2 a).mpr ⟨ha, hc⟩)
                refine ⟨0, by simp, Nat.succ_pos _, ?_⟩
                rw [List.getElem_cons_zero]
                exact haz

/-! ### Failure analysis of the loop -/

theorem bEOLoop_none_cycset (deps : DepMap) (hd : (keysOf deps).Nodup)
    (hall : AllPresent deps) :
    ∀ (fuel : Nat) (m : GoDegMap), DegInv deps m → m.keys.length ≤ fuel →
      bEOLoop deps fuel m.keys.length m = none →
      ∃ ids : List String, ids ≠ [] ∧ (∀ b ∈ ids, b ∈ m.keys) ∧
        (∀ b ∈ ids, ∃ a ∈ ids, DepEdge deps a b) := by
  intro fuel
  induction fuel with
  | zero =>
    intro m hinv hle hnone
    have h0 : m.keys.length = 0 := Nat.le_zero.mp hle
    rw [h0, bEOLoop_zero_r] at hnone
    cases hnone
  | succ fuel ih =>
    intro m hinv hle hnone
    cases hr : m.keys.length with
    | zero => rw [hr, bEOLoop_zero_r] at hnone; cases hnone
    | succ r =>
      rw [hr, bEOLoop_succ] at hnone
      by_cases hempty : zeroLevel m = []
      · -- every live stage keeps a live dependency: the live set is cyclic
        refine ⟨m.keys, ?_, fun b hb => hb, ?_⟩
        · intro hc
          rw [hc] at hr
          cases hr
        · intro b hb
          have hb0 : ¬ m.get b = 0 := by
            intro h0
            have hbz : b ∈ zeroLevel m := (mem_zeroLevel m b).mpr ⟨hb, h0⟩
            rw [hempty] at hbz
            cases hbz
          have hlc : liveCount deps m.keys (depsOf deps b) ≠ 0 := by
            intro h0
            apply hb0
            rw [hinv.degEq b hb, h0]
            rfl
          have hne2 : (depsOf deps b).filter
              (fun a => decide (a ∈ m.keys ∨ ¬ a ∈ keysOf deps)) ≠ [] := by
            intro h0
            apply hlc
            unfold liveCount
            rw [h0]
            rfl
          obtain ⟨a, ha⟩ := List.exists_mem_of_ne_nil _ hne2
          have ha2 := List.mem_filter.mp ha
          have hadep : a ∈ depsOf deps b := ha2.1
          have ha3 : a ∈ m.keys ∨ ¬ a ∈ keysOf deps := by
            simpa using ha2.2
          refine ⟨a, ?_, hadep⟩
          rcases ha3 with h | h
          · exact h
          · exact absurd (allPresent_depsOf deps hall a b hadep) h
      · rw [if_neg hempty] at hnone
        obtain ⟨hinv2, hmem2, hlen2, hpos2, hle2⟩ := bEOLoop_step_facts deps hd m hinv hempty
        have hr2 : r + 1 - (zeroLevel m).length =
            (processLevel deps m (zeroLevel m)).keys.length := by
          rw [hlen2, hr]
        rw [hr2] at hnone
        cases hrec : bEOLoop deps fuel (processLevel deps m (zeroLevel m)).keys.length
            (processLevel deps m (zeroLevel m)) with
        | some rest => rw [hrec] at hnone; cases hnone
        | none =>
          have hbound : (processLevel deps m (zeroLevel m)).keys.length ≤ fuel := by
            rw [hlen2, hr]
            omega
          obtain ⟨ids, hne3, hsub3, hpred3⟩ :=
            ih (processLevel deps m (zeroLevel m)) hinv2 hbound hrec
          exact ⟨ids, hne3, fun b hb => ((hmem2 b).mp (hsub3 b hb)).1, hpred3⟩

theorem bEOLoop_none_of_cycset (deps : DepMap) (hd : (keysOf deps).Nodup)
    (ids : List String) (hne : ids ≠ []) (hpred : ∀ b ∈ ids, ∃ a ∈ ids, DepEdge deps a b) :
    ∀ (fuel : Nat) (m : GoDegMap), DegInv deps m → (∀ b ∈ ids, b ∈ m.keys) →
      bEOLoop deps fuel m.keys.length m = none := by
  intro fuel
  induction fuel with
  | zero =>
    intro m hinv hsub
    obtain ⟨b, hb⟩ := List.exists_mem_of_ne_nil ids hne
    have hbk := hsub b hb
    have hlen : m.keys.length ≠ 0 := by
      intro h0
      rw [List.length_eq_zero.mp h0] at hbk
      cases hbk
    obtain ⟨r, hr⟩ := Nat.exists_eq_succ_of_ne_zero hlen
    rw [hr]
    rfl
  | succ fuel ih =>
    intro m hinv hsub
    have hlive : ∀ b ∈ ids, ¬ b ∈ zeroLevel m := by
      intro b hb hbz
      obtain ⟨a, ha, hedge⟩ := hpred b hb
      exact zeroLevel_no_live_dep deps m hinv b hbz a hedge (hsub a ha)
    obtain ⟨b, hb⟩ := List.exists_mem_of_ne_nil ids hne
    have hlen : m.keys.length ≠ 0 := by
      intro h0
      have hbk := hsub b hb
      rw [List.length_eq_zero.mp h0] at hbk
      cases hbk
    obtain ⟨r, hr⟩ := Nat.exists_eq_succ_of_ne_zero hlen
    rw [hr, bEOLoop_succ]
    by_cases hempty : zeroLevel m = []
    · rw [if_pos hempty]
    · rw [if_neg hempty]
      obtain ⟨hinv2, hmem2, hlen2, hpos2, hle2⟩ := bEOLoop_step_facts deps hd m hinv hempty
      have hr2 : r + 1 - (zeroLevel m).length =
          (processLevel deps m (zeroLevel m)).keys.length := by
        rw [hlen2, hr]
      rw [hr2]
      have hrec := ih (processLevel deps m (zeroLevel m)) hinv2
        (fun c hc => (hmem2 c).mpr ⟨hsub c hc, hlive c hc⟩)
      rw [hrec]

/-! ### Top-level facts about `buildExecutionOrder` -/

/-- A cyclic dependency graph makes `buildExecutionOrder` fail with the
circular-dependency error. -/
theorem buildExecutionOrder_none_of_cycle (deps : DepMap) (hd : (keysOf deps).Nodup)
    (hc : CycleIn deps) : buildExecutionOrder deps = none := by
  obtain ⟨ids, hne, hpred, hsub⟩ := cycset_of_cycle deps hc
  have hkeys : (initDegMap deps).keys = keysOf deps := rfl
  unfold buildExecutionOrder
  have h1 : (keysOf deps).length = (initDegMap deps).keys.length := by rw [hkeys]
  rw [h1]
  exact bEOLoop_none_of_cycset deps hd ids hne hpred (initDegMap deps).keys.length
    (initDegMap deps) (degInv_init deps hd) (fun b hb => by rw [hkeys]; exact hsub b hb)

/-- Whenever `buildExecutionOrder` succeeds, the levels partition the stage
ids, no two same-level stages are connected, and every edge goes from an
earlier to a later level. -/
theorem buildExecutionOrder_props (deps : DepMap) (hd : (keysOf deps).Nodup)
    (order : List (List String)) (hsome : buildExecutionOrder deps = some order) :
    (∀ k, k ∈ order.join ↔ k ∈ keysOf deps) ∧ order.join.Nodup ∧
    (∀ L ∈ order, ∀ b ∈ L, ∀ a ∈ L, ¬ DepEdge deps a b) ∧
    (∀ j, ∀ hj : j < order.length, ∀ b ∈ order[j], ∀ a, DepEdge deps a b →
      a ∈ keysOf deps → ∃ i, ∃ hi : i < order.length, i < j ∧ a ∈ order[i]) := by
  have hkeys : (initDegMap deps).keys = keysOf deps := rfl
  unfold buildExecutionOrder at hsome
  have h1 : (keysOf deps).length = (initDegMap deps).keys.length := by rw [hkeys]
  rw [h1] at hsome
  exact bEOLoop_sound deps hd (initDegMap deps).keys.length (initDegMap deps)
    (degInv_init deps hd) (le_refl _) order hsome

/-- On an acyclic dependency map with all references present, the analysis
succeeds. -/
theorem buildExecutionOrder_some_of_acyclic (deps : DepMap) (hd : (keysOf deps).Nodup)
    (hall : AllPresent deps) (hnc : ¬ CycleIn deps) :
    ∃ order, buildExecutionOrder deps = some order := by
  cases hbo : buildExecutionOrder deps with
  | some order => exact ⟨order, rfl⟩
  | none =>
    exfalso
    unfold buildExecutionOrder at hbo
    have h1 : (keysOf deps).length = (initDegMap deps).keys.length := rfl
    rw [h1] at hbo
    obtain ⟨ids, hne, hsub, hpred⟩ := bEOLoop_none_cycset deps hd hall
      (initDegMap deps).keys.length (initDegMap deps) (degInv_init deps hd) (le_refl _) hbo
    exact hnc (cycle_of_cycset deps ids hne hpred)

/-! ### Registry bookkeeping -/

theorem registry_append_erase (registry : List String) (x : String) (hx : ¬ x ∈ registry) :
    (registry ++ [x]).erase x = registry := by
  rw [List.erase_append_right _ hx]
  simp

/-! # Claim theorems -/

/-- C5: For every worker spec for which pod creation succeeded,
`CreateAndWaitForWorker` attempts exactly one pod deletion before returning,
on every exit path (success, worker failure, caller cancellation), and the
deletion runs on an independent context bounded by 30 seconds, never the
caller's context; the returned error is derived from the worker outcome
alone and is unchanged by any cleanup error. -/
theorem createAndWaitForWorker_cleanup_spec (name : String) (w : WaitOutcome)
    (cleanupErr cleanupErr2 : Option String) :
    (createAndWaitForWorker name none w cleanupErr).2.count
        (MgrAct.deletePod name (.independent 30)) = 1 ∧
    (∀ c : CleanupCtx,
      MgrAct.deletePod name c ∈ (createAndWaitForWorker name none w cleanupErr).2 →
      c = .independent 30) ∧
    (createAndWaitForWorker name none w cleanupErr).1 =
      (createAndWaitForWorker name none w cleanupErr2).1 ∧
    (createAndWaitForWorker name none w cleanupErr).1 =
      (waitErrOf name w).map (fun e => "worker " ++ name ++ " failed: " ++ e) := by
  refine ⟨?_, ?_, rfl, rfl⟩
  · cases cleanupErr <;> simp [createAndWaitForWorker, List.count_cons]
  · intro c hc
    cases cleanupErr <;> simp [createAndWaitForWorker] at hc <;> exact hc

/-- Witness for C5 at a concrete cancelled worker with a failing cleanup. -/
theorem createAndWaitForWorker_cleanup_spec_witness :
    (createAndWaitForWorker "w" none (.cancelled "context canceled") (some "boom")).2.count
        (MgrAct.deletePod "w" (.independent 30)) = 1 ∧
    (createAndWaitForWorker "w" none (.cancelled "context canceled") (some "boom")).1 =
      (createAndWaitForWorker "w" none (.cancelled "context canceled") none).1 :=
  ⟨(createAndWaitForWorker_cleanup_spec "w" (.cancelled "context canceled")
      (some "boom") none).1,
   (createAndWaitForWorker_cleanup_spec "w" (.cancelled "context canceled")
      (some "boom") none).2.2.1⟩

/-- C10: For every well-formed registration request (non-empty worker and
task ids) and every server state, `RegisterWorker` answers `SUCCESS` or
`ALREADY_REGISTERED`, never `SERVER_FULL`: a worker with an active session
is answered `ALREADY_REGISTERED` before the cap is consulted, and the cap
counts only active sessions, so the `SERVER_FULL` branch is unreachable. -/
theorem registerWorker_never_server_full (sessions : List SessionSt) (wid tid sid : String)
    (hw : ¬ wid = "") (ht : ¬ tid = "") :
    ∃ st : RegStatus × String, registerWorker sessions (some (wid, tid)) sid = .ok st ∧
      (st.1 = RegStatus.SUCCESS ∨ st.1 = RegStatus.ALREADY_REGISTERED) := by
  have hred : registerWorker sessions (some (wid, tid)) sid =
      (if wid = "" then Except.error "worker_id is required"
       else if tid = "" then Except.error "task_id is required"
       else
         match findSessionByWorker sessions wid with
         | some s => Except.ok (RegStatus.ALREADY_REGISTERED, s.sessionId)
         | none =>
           if maxSessionsPerWorker ≤ countActiveSessionsForWorker sessions wid then
             Except.ok (RegStatus.SERVER_FULL, "")
           else Except.ok (RegStatus.SUCCESS, sid)) := rfl
  rw [hred, if_neg hw, if_neg ht]
  cases hfind : findSessionByWorker sessions wid with
  | some s => exact ⟨(.ALREADY_REGISTERED, s.sessionId), rfl, Or.inr rfl⟩
  | none =>
    have hcount : countActiveSessionsForWorker sessions wid = 0 := by
      unfold countActiveSessionsForWorker
      rw [List.length_eq_zero, List.filter_eq_nil_iff]
      intro s hs
      simpa using List.find?_eq_none.mp hfind s hs
    rw [hcount]
    have hfull : ¬ maxSessionsPerWorker ≤ 0 := by decide
    rw [if_neg hfull]
    exact ⟨(.SUCCESS, sid), rfl, Or.inl rfl⟩

/-- Witness for C10 on a server already holding an active session. -/
theorem registerWorker_never_server_full_witness :
    ∃ st : RegStatus × String, registerWorker [exSession] (some ("w1", "t1")) "sid2" = .ok st ∧
      (st.1 = RegStatus.SUCCESS ∨ st.1 = RegStatus.ALREADY_REGISTERED) :=
  registerWorker_never_server_full [exSession] "w1" "t1" "sid2" (by decide) (by decide)

/-- C7: `ExecutePipeline` rejects an empty pipeline id and an empty stage
list with invalid-argument, rejects a pipeline id present in the registry
with already-exists, and on every admitted call the registry entry is
removed on exit, so the same id is admitted again afterwards. -/
theorem executePipeline_admission_registry (registry : List String) (r : PReq)
    (streamOk streamOk2 : Bool) :
    (r.pipelineId = "" →
      executePipelineCall registry (some r) streamOk =
        (.invalidArgument "pipeline_id is required", registry)) ∧
    (r.stages = [] → ¬ r.pipelineId = "" →
      executePipelineCall registry (some r) streamOk =
        (.invalidArgument "at least one stage is required", registry)) ∧
    (¬ r.pipelineId = "" → ¬ r.stages = [] → r.pipelineId ∈ registry →
      (executePipelineCall registry (some r) streamOk).1.isAlreadyExists = true ∧
      (executePipelineCall registry (some r) streamOk).2 = registry) ∧
    (¬ r.pipelineId = "" → ¬ r.stages = [] → ¬ r.pipelineId ∈ registry →
      (executePipelineCall registry (some r) streamOk).2 = registry ∧
      (executePipelineCall ((executePipelineCall registry (some r) streamOk).2) (some r)
        streamOk2).1.isAlreadyExists = false) := by
  refine ⟨?_, ?_, ?_, ?_⟩
  · intro h
    simp only [executePipelineCall]
    rw [if_pos h]
  · intro hs hid
    simp only [executePipelineCall]
    rw [if_neg hid, if_pos hs]
  · intro hid hs hmem
    simp only [executePipelineCall]
    rw [if_neg hid, if_neg hs, if_pos hmem]
    exact ⟨rfl, rfl⟩
  · intro hid hs hmem
    have hreg : (executePipelineCall registry (some r) streamOk).2 = registry := by
      simp only [executePipelineCall]
      rw [if_neg hid, if_neg hs, if_neg hmem]
      exact registry_append_erase registry r.pipelineId hmem
    refine ⟨hreg, ?_⟩
    rw [hreg]
    simp only [executePipelineCall]
    rw [if_neg hid, if_neg hs, if_neg hmem]
    cases hbo : buildExecutionOrder (stageDeps (mkStageMap r.stages)) <;>
      cases streamOk2 <;> simp [PipeCallResult.isAlreadyExists]

/-- Witness for C7: an admitted run leaves the registry as it was and the
same id is not rejected afterwards. -/
theorem executePipeline_admission_registry_witness :
    (executePipelineCall ["p2"] (some exReq) true).2 = ["p2"] ∧
    (executePipelineCall ((executePipelineCall ["p2"] (some exReq) true).2) (some exReq)
      true).1.isAlreadyExists = false :=
  (executePipeline_admission_registry ["p2"] exReq true true).2.2.2
    (by decide) (by decide) (by decide)

/-- C9 counterexample: the pipeline executor's `createWorkerConfigs` does
not sanitize pod names (the emitted name keeps `_` and uppercase verbatim,
differing from its DNS-sanitized form), does not include an `app` label in
the synthesized spec, and does not sanitize label values (`/` survives in
the `stage-type` value). -/
theorem createWorkerConfigs_unsanitized_cex :
    ((createWorkerConfigs "Pipe" exStageRaw).map WorkerConfig.name =
      ["otto-Pipe-my_stage-1"]) ∧
    ('_' ∈ "otto-Pipe-my_stage-1".toList ∧ 'P' ∈ "otto-Pipe-my_stage-1".toList) ∧
    sanitizeTaskID "otto-Pipe-my_stage-1" ≠ "otto-Pipe-my_stage-1" ∧
    (∀ cfg ∈ createWorkerConfigs "Pipe" exStageRaw,
      ¬ "app" ∈ cfg.labels.map Prod.fst ∧
      ("stage-type", "node/build") ∈ cfg.labels) ∧
    sanitizeLabel "node/build" ≠ "node/build" := by decide

/-- C9 amended: for stage `S` of pipeline `P` with worker count `k`, the
executor synthesizes exactly `k` specs indexed `1..k` whose names are the
unsanitized `otto-<P.id>-<S.id>-<i>`, whose labels are exactly
`pipeline-id`, `stage-id`, `stage-type` and `managed-by = ottoscaler`
(no `app` label at spec level), and whose image falls back to
`busybox:latest` when the stage image is unset. -/
theorem createWorkerConfigs_shape (pid : String) (st : StageSpec) :
    (createWorkerConfigs pid st).length = st.workerCount ∧
    (createWorkerConfigs pid st).map WorkerConfig.name =
      (List.range st.workerCount).map
        (fun i => "otto-" ++ pid ++ "-" ++ st.stageId ++ "-" ++ toString (i + 1)) ∧
    (∀ cfg ∈ createWorkerConfigs pid st,
      cfg.labels = [("pipeline-id", pid), ("stage-id", st.stageId),
        ("stage-type", st.stageType), ("managed-by", "ottoscaler")] ∧
      cfg.command = st.command ∧ cfg.args = st.args ∧
      cfg.image = (if st.image = "" then defaultWorkerImage else st.image)) := by
  refine ⟨by simp [createWorkerConfigs], by simp [createWorkerConfigs], ?_⟩
  intro cfg hcfg
  simp only [createWorkerConfigs, List.mem_map] at hcfg
  obtain ⟨i, _, hi⟩ := hcfg
  subst hi
  exact ⟨rfl, rfl, rfl, rfl⟩

/-- Witness for the amended C9 on a concrete stage. -/
theorem createWorkerConfigs_shape_witness :
    (createWorkerConfigs "p" exStagePlain).length = 1 ∧
    ∀ cfg ∈ createWorkerConfigs "p" exStagePlain,
      cfg.labels = [("pipeline-id", "p"), ("stage-id", "build"),
        ("stage-type", "build"), ("managed-by", "ottoscaler")] := by
  have h := createWorkerConfigs_shape "p" exStagePlain
  exact ⟨h.1, fun cfg hc => (h.2.2 cfg hc).1⟩

/-! ### C2: disposition of invalid log entries -/

theorem processLogEntry_missing_field (e : LogEntryIn) (s : SessionSt) (now : String)
    (fOk : Bool) (h : e.workerId = "" ∨ e.taskId = "" ∨ e.message = "") :
    ∃ msg s1, processLogEntry e s now fOk = (.procErr msg, s1) := by
  unfold processLogEntry
  by_cases h1 : e.workerId = ""
  · exact ⟨_, _, by rw [if_pos h1]⟩
  · rw [if_neg h1]
    by_cases h2 : e.taskId = ""
    · exact ⟨_, _, by rw [if_pos h2]⟩
    · rw [if_neg h2]
      have h3 : e.message = "" := by tauto
      exact ⟨_, _, by rw [if_pos h3]⟩

/-- C2 counterexample: with a session already bound to the stream, an entry
missing its message is answered `RETRY`, not `DROP` as the claim states
(it is still not forwarded to the egress). -/
theorem streamLogs_missing_message_retry_cex :
    (streamStep [exSession] (some exSession)
      (some { exEntry with message := "" }) true "now").1.status = RespStatus.RETRY ∧
    ¬ (streamStep [exSession] (some exSession)
      (some { exEntry with message := "" }) true "now").1.status = RespStatus.DROP ∧
    (streamStep [exSession] (some exSession)
      (some { exEntry with message := "" }) true "now").2.2 = [] := by decide

/-- C2 amended: a nil entry is answered `DROP`; a non-nil entry whose
worker id matches no active session while no session is bound is answered
`DROP`; a non-nil entry missing worker id, task id or message that reaches
processing on a bound session is answered `RETRY`; in all three cases the
entry is never forwarded to the handler egress. -/
theorem streamLogs_invalid_entry_disposition (sessions : List SessionSt)
    (cur : Option SessionSt) (e : LogEntryIn) (s0 : SessionSt) (fOk : Bool) (now : String) :
    ((streamStep sessions cur none fOk now).1.status = RespStatus.DROP ∧
      (streamStep sessions cur none fOk now).2.2 = []) ∧
    (findSessionByWorker sessions e.workerId = none →
      (streamStep sessions none (some e) fOk now).1.status = RespStatus.DROP ∧
      (streamStep sessions none (some e) fOk now).2.2 = []) ∧
    ((e.workerId = "" ∨ e.taskId = "" ∨ e.message = "") →
      (streamStep sessions (some s0) (some e) fOk now).1.status = RespStatus.RETRY ∧
      (streamStep sessions (some s0) (some e) fOk now).2.2 = []) := by
  refine ⟨⟨rfl, rfl⟩, ?_, ?_⟩
  · intro hfind
    constructor <;> simp [streamStep, hfind]
  · intro hmiss
    obtain ⟨msg, s1, hp⟩ := processLogEntry_missing_field e s0 now fOk hmiss
    constructor <;> simp [streamStep, hp]

/-- Witness for the amended C2: unregistered-worker entry dropped, bound
missing-message entry answered `RETRY`, neither forwarded. -/
theorem streamLogs_invalid_entry_disposition_witness :
    ((streamStep [] none (some exEntry) true "now").1.status = RespStatus.DROP ∧
      (streamStep [] none (some exEntry) true "now").2.2 = []) ∧
    ((streamStep [exSession] (some exSession)
        (some { exEntry with taskId := "" }) true "now").1.status = RespStatus.RETRY ∧
      (streamStep [exSession] (some exSession)
        (some { exEntry with taskId := "" }) true "now").2.2 = []) := by
  have h := streamLogs_invalid_entry_disposition [] none exEntry exSession true "now"
  have h2 := streamLogs_invalid_entry_disposition [exSession] none
    { exEntry with taskId := "" } exSession true "now"
  exact ⟨h.2.1 (by decide), h2.2.2 (by decide)⟩

/-! ### C8: ACK sequence numbers -/

theorem processLogEntry_logCount (e : LogEntryIn) (s : SessionSt) (now : String) (fOk : Bool) :
    (processLogEntry e s now fOk).2.logCount = s.logCount := by
  unfold processLogEntry
  by_cases h1 : e.workerId = "" <;> by_cases h2 : e.taskId = "" <;>
    by_cases h3 : e.message = "" <;> cases fOk <;> simp [h1, h2, h3]

theorem streamStep_bound_session (sessions : List SessionSt) (s : SessionSt)
    (entry : Option LogEntryIn) (fOk : Bool) (now : String) :
    ∃ s2 : SessionSt, (streamStep sessions (some s) entry fOk now).2.1 = some s2 ∧
      ((streamStep sessions (some s) entry fOk now).1.status = RespStatus.ACK →
        s2.logCount = s.logCount + 1 ∧
        (streamStep sessions (some s) entry fOk now).1.sequence = s.logCount + 1) ∧
      (¬ (streamStep sessions (some s) entry fOk now).1.status = RespStatus.ACK →
        s2.logCount = s.logCount) := by
  cases entry with
  | none =>
    refine ⟨s, rfl, ?_, fun _ => rfl⟩
    intro h
    simp [streamStep] at h
  | some e =>
    have hlog := processLogEntry_logCount e s now fOk
    cases hproc : processLogEntry e s now fOk with
    | mk outcome s1 =>
      rw [hproc] at hlog
      replace hlog : s1.logCount = s.logCount := hlog
      cases outcome with
      | procErr msg =>
        refine ⟨s1, ?_, ?_, ?_⟩
        · simp [streamStep, hproc]
        · intro h
          simp [streamStep, hproc] at h
        · intro _
          exact hlog
      | ok fe =>
        refine ⟨{ s1 with logCount := s1.logCount + 1 }, ?_, ?_, ?_⟩
        · simp [streamStep, hproc]
        · intro _
          refine ⟨by simp [hlog], ?_⟩
          simp only [streamStep, hproc]
          simp [hlog]
        · intro h
          exfalso
          apply h
          simp [streamStep, hproc]

/-- C8: within one streaming session, the sequence numbers of ACK
responses are exactly the consecutive integers starting after the
session's log count, so the k-th ACKed entry of a fresh session carries
sequence k (the post-increment per-session count). -/
theorem streamLogs_ack_sequences (sessions : List SessionSt) (s : SessionSt)
    (items : List (Option LogEntryIn × Bool)) (now : String) :
    ((runStream sessions (some s) items now).1.filter
      (fun r => r.status == RespStatus.ACK)).map LogResponse.sequence =
    List.range' (s.logCount + 1)
      ((runStream sessions (some s) items now).1.filter
        (fun r => r.status == RespStatus.ACK)).length := by
  induction items generalizing s with
  | nil => simp [runStream]
  | cons it rest ih =>
    obtain ⟨entry, fOk⟩ := it
    obtain ⟨s2, hs2, hack, hnack⟩ := streamStep_bound_session sessions s entry fOk now
    simp only [runStream]
    rw [hs2]
    by_cases hst : (streamStep sessions (some s) entry fOk now).1.status = RespStatus.ACK
    · have hb : ((streamStep sessions (some s) entry fOk now).1.status ==
          RespStatus.ACK) = true := by simp [hst]
      rw [List.filter_cons, if_pos hb, List.map_cons, (hack hst).2, List.length_cons,
        ih s2, (hack hst).1]
      rfl
    · have hb : ¬ ((streamStep sessions (some s) entry fOk now).1.status ==
          RespStatus.ACK) = true := by simp [hst]
      rw [List.filter_cons, if_neg hb, ih s2, hnack hst]

/-! ### C6: retry exhaustion -/

theorem createWorkerConfigs_name_count (pid : String) (st : StageSpec) :
    ((createWorkerConfigs pid st).map WorkerConfig.name).length = st.workerCount := by
  simp [createWorkerConfigs]

theorem execStageGo_fail_step (pid : String) (st : StageSpec) (e : String) (rp : RetryPolicy)
    (hrp : st.retryPolicy = some rp) (hk : ¬ st.workerCount = 0) (g rc : Nat) (err0 : String) :
    execStageGo pid st (some e) g err0 rc =
      if rc < rp.maxAttempts then
        match g with
        | gg + 1 =>
          let rest := execStageGo pid st (some e) gg e (rc + 1)
          { events := [mkEv pid st.stageId .running 0 err0,
              mkEv pid st.stageId .retrying 0 e] ++ rest.events
            podsCreated := ((createWorkerConfigs pid st).map WorkerConfig.name) ++
              rest.podsCreated
            sleeps := rp.retryDelaySeconds :: rest.sleeps
            result := rest.result }
        | 0 =>
          { events := [mkEv pid st.stageId .running 0 err0, mkEv pid st.stageId .failed 0 e]
            podsCreated := (createWorkerConfigs pid st).map WorkerConfig.name
            sleeps := [], result := some e }
      else
        { events := [mkEv pid st.stageId .running 0 err0, mkEv pid st.stageId .failed 0 e]
          podsCreated := (createWorkerConfigs pid st).map WorkerConfig.name
          sleeps := [], result := some e } := by
  conv_lhs => rw [execStageGo]
  rw [if_neg hk, hrp]

theorem execStageGo_all_fail (pid : String) (st : StageSpec) (e : String) (rp : RetryPolicy)
    (hrp : st.retryPolicy = some rp) (hk : ¬ st.workerCount = 0) :
    ∀ g rc err0, g = rp.maxAttempts - rc → rc ≤ rp.maxAttempts →
      (execStageGo pid st (some e) g err0 rc).result = some e ∧
      ((execStageGo pid st (some e) g err0 rc).events.filter
        (fun ev => ev.status == EvStatus.running)).length = rp.maxAttempts - rc + 1 ∧
      ((execStageGo pid st (some e) g err0 rc).events.filter
        (fun ev => ev.status == EvStatus.retrying)).length = rp.maxAttempts - rc ∧
      (execStageGo pid st (some e) g err0 rc).podsCreated.length =
        (rp.maxAttempts - rc + 1) * st.workerCount ∧
      (execStageGo pid st (some e) g err0 rc).sleeps =
        List.replicate (rp.maxAttempts - rc) rp.retryDelaySeconds ∧
      (execStageGo pid st (some e) g err0 rc).events.getLast? =
        some (mkEv pid st.stageId .failed 0 e) ∧
      ((execStageGo pid st (some e) g err0 rc).events.filter
        (fun ev => ev.status.isTerminal)).length = 1 := by
  intro g
  induction g with
  | zero =>
    intro rc err0 hg hrc
    have hrceq : rc = rp.maxAttempts := by omega
    have hnl : ¬ rc < rp.maxAttempts := by omega
    rw [execStageGo_fail_step pid st e rp hrp hk 0 rc err0, if_neg hnl]
    subst hrceq
    refine ⟨rfl, ?_, ?_, ?_, ?_, ?_, ?_⟩
    · simp [mkEv, Nat.sub_self]
    · simp [mkEv, Nat.sub_self]
    · simp [createWorkerConfigs, Nat.sub_self]
    · simp [Nat.sub_self]
    · simp
    · simp [mkEv, EvStatus.isTerminal]
  | succ g ihg =>
    intro rc err0 hg hrc
    have hlt : rc < rp.maxAttempts := by omega
    have ihr := ihg (rc + 1) e (by omega) (by omega)
    rw [execStageGo_fail_step pid st e rp hrp hk (g + 1) rc err0, if_pos hlt]
    have hA : rp.maxAttempts - rc = (rp.maxAttempts - (rc + 1)) + 1 := by omega
    obtain ⟨ih1, ih2, ih3, ih4, ih5, ih6, ih7⟩ := ihr
    have hne : (execStageGo pid st (some e) g e (rc + 1)).events ≠ [] := by
      intro hnil
      rw [hnil] at ih6
      simp at ih6
    refine ⟨ih1, ?_, ?_, ?_, ?_, ?_, ?_⟩
    · simp only [List.filter_append, List.length_append, ih2]
      rw [hA]
      simp [mkEv]
      omega
    · simp only [List.filter_append, List.length_append, ih3]
      rw [hA]
      simp [mkEv]
      omega
    · simp only [List.length_append, ih4, createWorkerConfigs_name_count]
      rw [hA]
      ring
    · simp only [ih5]
      rw [hA, List.replicate_succ]
    · rw [List.getLast?_append_of_ne_nil _ hne]
      exact ih6
    · simp only [List.filter_append, List.length_append, ih7]
      simp [mkEv, EvStatus.isTerminal]

/-- C6: a stage with retry policy `{N, d}` whose workers deterministically
fail runs the stage flow exactly `N+1` times: `N+1` running events,
requesting `(N+1) * worker_count` pod creations in total; each of the `N`
retries emits a `retrying` progress and sleeps `d` seconds; exactly one
terminal stage event is emitted, it is the last one, it is `failed` and it
carries the error message; `executeStage` returns the error. -/
theorem executeStage_retry_exhaustion (pid : String) (st : StageSpec) (e : String)
    (rp : RetryPolicy) (hrp : st.retryPolicy = some rp) (hk : ¬ st.workerCount = 0) :
    (executeStage pid st (some e)).result = some e ∧
    ((executeStage pid st (some e)).events.filter
      (fun ev => ev.status == EvStatus.running)).length = rp.maxAttempts + 1 ∧
    ((executeStage pid st (some e)).events.filter
      (fun ev => ev.status == EvStatus.retrying)).length = rp.maxAttempts ∧
    (executeStage pid st (some e)).podsCreated.length =
      (rp.maxAttempts + 1) * st.workerCount ∧
    (executeStage pid st (some e)).sleeps =
      List.replicate rp.maxAttempts rp.retryDelaySeconds ∧
    (executeStage pid st (some e)).events.getLast? =
      some (mkEv pid st.stageId .failed 0 e) ∧
    ((executeStage pid st (some e)).events.filter
      (fun ev => ev.status.isTerminal)).length = 1 := by
  have hma : stageMaxAttempts st = rp.maxAttempts := by
    simp [stageMaxAttempts, hrp]
  have h := execStageGo_all_fail pid st e rp hrp hk (stageMaxAttempts st) 0 ""
    (by omega) (by omega)
  simpa [executeStage, Nat.sub_zero] using h

/-- Witness for C6: `max_attempts = 2`, `delay = 1`, two workers, all
attempts failing: 3 runs, 6 pod creations, 2 retrying events, 2 sleeps,
terminal `failed` carrying the error. -/
theorem executeStage_retry_exhaustion_witness :
    (executeStage "p" exStageRetry (some "boom")).result = some "boom" ∧
    ((executeStage "p" exStageRetry (some "boom")).events.filter
      (fun ev => ev.status == EvStatus.running)).length = 3 ∧
    ((executeStage "p" exStageRetry (some "boom")).events.filter
      (fun ev => ev.status == EvStatus.retrying)).length = 2 ∧
    (executeStage "p" exStageRetry (some "boom")).podsCreated.length = 6 ∧
    (executeStage "p" exStageRetry (some "boom")).sleeps = List.replicate 2 1 ∧
    (executeStage "p" exStageRetry (some "boom")).events.getLast? =
      some (mkEv "p" "test" .failed 0 "boom") ∧
    ((executeStage "p" exStageRetry (some "boom")).events.filter
      (fun ev => ev.status.isTerminal)).length = 1 :=
  executeStage_retry_exhaustion "p" exStageRetry "boom"
    { maxAttempts := 2, retryDelaySeconds := 1 } rfl (by decide)

/-! ### C1: terminal progress delivery -/

theorem foldl_trySend_append (evs : List Ev) :
    ∀ buf : List Ev, buf.length + evs.length ≤ progressChanCapacity →
      evs.foldl trySend buf = buf ++ evs := by
  induction evs with
  | nil => intro buf _; simp
  | cons e evs ih =>
    intro buf hlen
    simp only [List.length_cons] at hlen
    have h1 : buf.length < progressChanCapacity := by omega
    rw [List.foldl_cons]
    have hsend : trySend buf e = buf ++ [e] := by
      unfold trySend
      rw [if_pos h1]
    rw [hsend, ih (buf ++ [e]) (by simp; omega)]
    simp

set_option maxRecDepth 4000 in
/-- C1 counterexample: when the progress channel already holds 100
undelivered events at the moment `executePipeline` emits its terminal
event, the non-blocking send drops it: the channel is closed although no
pipeline-level terminal event was ever delivered. (100 stage events arise
from 50 stages emitting `running` plus a terminal each while the consumer
is blocked in `stream.Send`.) -/
theorem pipeline_terminal_dropped_cex :
    ((pipelineChannelRun "p" (List.replicate 100 exStageEv) true).filter
      Ev.isPipelineTerminal) = [] ∧
    (pipelineChannelRun "p" (List.replicate 100 exStageEv) true).length = 100 := by decide

/-- C1 amended: the executor always try-sends exactly one pipeline-level
terminal event, after every stage event and before closing the channel; the
initial event is the pipeline-level `pending` event; whenever the channel
is not full at the terminal emission (at most 98 stage events behind a
blocked consumer), the delivered stream ends with that exactly-once
terminal event. A full channel (100 queued events) silently drops it. -/
theorem pipeline_terminal_delivery (pid : String) (stageEvents : List Ev) (success : Bool)
    (hlen : stageEvents.length ≤ 98) (hsid : ∀ ev ∈ stageEvents, ¬ ev.stageId = "") :
    pipelineChannelRun pid stageEvents success =
      (mkEv pid "" .pending 0 "" :: stageEvents) ++
        [if success then mkEv pid "" .completed 100 "" else mkEv pid "" .failed 0 ""] ∧
    ((pipelineChannelRun pid stageEvents success).filter Ev.isPipelineTerminal).length = 1 ∧
    (pipelineChannelRun pid stageEvents success).getLast? =
      some (if success then mkEv pid "" .completed 100 "" else mkEv pid "" .failed 0 "") ∧
    (pipelineChannelRun pid stageEvents success).head? = some (mkEv pid "" .pending 0 "") := by
  have hrun : pipelineChannelRun pid stageEvents success =
      (mkEv pid "" .pending 0 "" :: stageEvents) ++
        [if success then mkEv pid "" .completed 100 "" else mkEv pid "" .failed 0 ""] := by
    have hpc : pipelineChannelRun pid stageEvents success =
        trySend (stageEvents.foldl trySend (trySend [] (mkEv pid "" .pending 0 "")))
          (if success then mkEv pid "" .completed 100 "" else mkEv pid "" .failed 0 "") := rfl
    have h0 : trySend [] (mkEv pid "" .pending 0 "") = [mkEv pid "" .pending 0 ""] := by
      unfold trySend
      rw [if_pos (by simp [progressChanCapacity])]
      simp
    rw [hpc, h0, foldl_trySend_append stageEvents [mkEv pid "" .pending 0 ""]
      (by simp [progressChanCapacity]; omega)]
    have h2 : ([mkEv pid "" .pending 0 ""] ++ stageEvents).length < progressChanCapacity := by
      simp [progressChanCapacity]
      omega
    unfold trySend
    rw [if_pos h2]
    simp
  have hpend : Ev.isPipelineTerminal (mkEv pid "" .pending 0 "") = false := by
    simp [Ev.isPipelineTerminal, mkEv, EvStatus.isTerminal]
  have hterm : Ev.isPipelineTerminal
      (if success then mkEv pid "" .completed 100 "" else mkEv pid "" .failed 0 "") = true := by
    cases success <;> simp [Ev.isPipelineTerminal, mkEv, EvStatus.isTerminal]
  have hstage : stageEvents.filter Ev.isPipelineTerminal = [] := by
    rw [List.filter_eq_nil_iff]
    intro ev hev
    intro hc
    unfold Ev.isPipelineTerminal at hc
    rw [Bool.and_eq_true] at hc
    exact hsid ev hev (by simpa using hc.1)
  refine ⟨hrun, ?_, ?_, ?_⟩
  · rw [hrun, List.cons_append, List.filter_cons, if_neg (by simp [hpend]),
      List.filter_append, hstage, List.filter_cons, if_pos hterm]
    simp
  · rw [hrun]
    exact List.getLast?_concat _
  · rw [hrun, List.cons_append]
    rfl

/-- Witness for the amended C1: two stage events then a failing pipeline. -/
theorem pipeline_terminal_delivery_witness :
    pipelineChannelRun "p" [mkEv "p" "s" .running 0 "", mkEv "p" "s" .failed 0 "x"] false =
      (mkEv "p" "" .pending 0 "" ::
        [mkEv "p" "s" .running 0 "", mkEv "p" "s" .failed 0 "x"]) ++
        [if false then mkEv "p" "" .completed 100 "" else mkEv "p" "" .failed 0 ""] ∧
    ((pipelineChannelRun "p" [mkEv "p" "s" .running 0 "", mkEv "p" "s" .failed 0 "x"]
      false).filter Ev.isPipelineTerminal).length = 1 ∧
    (pipelineChannelRun "p" [mkEv "p" "s" .running 0 "", mkEv "p" "s" .failed 0 "x"]
      false).getLast? =
      some (if false then mkEv "p" "" .completed 100 "" else mkEv "p" "" .failed 0 "") ∧
    (pipelineChannelRun "p" [mkEv "p" "s" .running 0 "", mkEv "p" "s" .failed 0 "x"]
      false).head? = some (mkEv "p" "" .pending 0 "") :=
  pipeline_terminal_delivery "p" [mkEv "p" "s" .running 0 "", mkEv "p" "s" .failed 0 "x"]
    false (by decide) (by decide)

/-! ### Stage-map helpers for the `Execute` entry point -/

theorem keysOf_stageDeps (sts : List StageSpec) :
    keysOf (stageDeps sts) = sts.map StageSpec.stageId := by
  unfold keysOf stageDeps
  rw [List.map_map]
  rfl

theorem mkStageMap_fold_ids_nodup :
    ∀ (sts acc : List StageSpec), (acc.map StageSpec.stageId).Nodup →
      ((sts.foldl
        (fun acc s =>
          if acc.any (fun t => t.stageId == s.stageId) then
            acc.map (fun t => if t.stageId == s.stageId then s else t)
          else acc ++ [s]) acc).map StageSpec.stageId).Nodup := by
  intro sts
  induction sts with
  | nil =>
    intro acc hacc
    simpa using hacc
  | cons s rest ih =>
    intro acc hacc
    rw [List.foldl_cons]
    by_cases hany : acc.any (fun t => t.stageId == s.stageId) = true
    · rw [if_pos hany]
      apply ih
      have hids : (acc.map (fun t => if t.stageId == s.stageId then s else t)).map
          StageSpec.stageId = acc.map StageSpec.stageId := by
        rw [List.map_map]
        apply List.map_congr_left
        intro t _
        simp only [Function.comp_apply]
        by_cases h : t.stageId == s.stageId
        · rw [if_pos h]
          exact (beq_iff_eq.mp h).symm
        · rw [if_neg h]
      rw [hids]
      exact hacc
    · rw [if_neg hany]
      apply ih
      rw [List.map_append]
      simp only [List.map_cons, List.map_nil]
      have hnot : s.stageId ∉ acc.map StageSpec.stageId := by
        intro hmem
        obtain ⟨t, ht, hts⟩ := List.mem_map.mp hmem
        exact hany (List.any_eq_true.mpr ⟨t, ht, beq_iff_eq.mpr hts⟩)
      rw [List.nodup_append]
      refine ⟨hacc, List.nodup_singleton _, ?_⟩
      intro a ha hb
      rw [List.mem_singleton] at hb
      exact hnot (hb ▸ ha)

theorem mkStageMap_ids_nodup (sts : List StageSpec) :
    ((mkStageMap sts).map StageSpec.stageId).Nodup := by
  unfold mkStageMap
  exact mkStageMap_fold_ids_nodup sts [] (by simp)

theorem stageDeps_mkStageMap_nodup (sts : List StageSpec) :
    (keysOf (stageDeps (mkStageMap sts))).Nodup := by
  rw [keysOf_stageDeps]
  exact mkStageMap_ids_nodup sts

/-- C3: on a dependency map with distinct stage ids, every referenced id
present and no dependency cycle, `buildExecutionOrder` succeeds, its levels
partition the stage ids without repetition, no two stages in the same level
have a dependency edge between them, and every dependency edge goes from a
stage placed in a strictly earlier level to its dependent. -/
theorem buildExecutionOrder_levels_correct (deps : DepMap)
    (hd : (keysOf deps).Nodup) (hall : AllPresent deps) (hnc : ¬ CycleIn deps) :
    ∃ order, buildExecutionOrder deps = some order ∧
      (∀ k, k ∈ order.join ↔ k ∈ keysOf deps) ∧ order.join.Nodup ∧
      (∀ L ∈ order, ∀ b ∈ L, ∀ a ∈ L, ¬ DepEdge deps a b) ∧
      (∀ j, ∀ hj : j < order.length, ∀ b ∈ order[j], ∀ a, DepEdge deps a b →
        ∃ i, ∃ hi : i < order.length, i < j ∧ a ∈ order[i]) := by
  obtain ⟨order, hsome⟩ := buildExecutionOrder_some_of_acyclic deps hd hall hnc
  obtain ⟨h1, h2, h3, h4⟩ := buildExecutionOrder_props deps hd order hsome
  refine ⟨order, hsome, h1, h2, h3, ?_⟩
  intro j hj b hb a hab
  exact h4 j hj b hb a hab (allPresent_depsOf deps hall a b hab)

/-- Witness for C3 on the diamond graph b, c after a and d after both. -/
theorem buildExecutionOrder_levels_correct_witness :
    (keysOf exDiamond).Nodup ∧ AllPresent exDiamond ∧ ¬ CycleIn exDiamond ∧
    (∃ order, buildExecutionOrder exDiamond = some order ∧
      (∀ k, k ∈ order.join ↔ k ∈ keysOf exDiamond) ∧ order.join.Nodup ∧
      (∀ L ∈ order, ∀ b ∈ L, ∀ a ∈ L, ¬ DepEdge exDiamond a b) ∧
      (∀ j, ∀ hj : j < order.length, ∀ b ∈ order[j], ∀ a, DepEdge exDiamond a b →
        ∃ i, ∃ hi : i < order.length, i < j ∧ a ∈ order[i])) := by
  have hd : (keysOf exDiamond).Nodup := by decide
  have hall : AllPresent exDiamond := by
    unfold AllPresent
    decide
  have hnc : ¬ CycleIn exDiamond := fun hc =>
    absurd (buildExecutionOrder_none_of_cycle exDiamond hd hc) (by decide)
  exact ⟨hd, hall, hnc, buildExecutionOrder_levels_correct exDiamond hd hall hnc⟩

/-- C4: a pipeline whose dependency graph contains a cycle (including a
self-edge) is rejected at admission: `buildExecutionOrder` fails — its
`none` outcome is by construction the iteration that finds no
zero-in-degree stage while stages remain — so `Execute` returns the
circular-dependency error before any stage runs, and no worker pod
creation is requested for that pipeline. -/
theorem execute_rejects_cyclic_pipeline (req : PReq) (fail : String → Option String)
    (hc : CycleIn (stageDeps (mkStageMap req.stages))) :
    buildExecutionOrder (stageDeps (mkStageMap req.stages)) = none ∧
    executeModel req fail = .error "circular dependency detected" ∧
    executeCreatedPods req fail = [] := by
  have hnone :=
    buildExecutionOrder_none_of_cycle _ (stageDeps_mkStageMap_nodup req.stages) hc
  have hmodel : executeModel req fail = .error "circular dependency detected" := by
    have hm : executeModel req fail =
        (match buildExecutionOrder (stageDeps (mkStageMap req.stages)) with
          | none => (Except.error "circular dependency detected" : Except String PipeRun)
          | some order =>
            Except.ok (executePipelineRun req.pipelineId (mkStageMap req.stages) order fail)) :=
      rfl
    rw [hm, hnone]
  have hpods : executeCreatedPods req fail = [] := by
    unfold executeCreatedPods
    rw [hmodel]
  exact ⟨hnone, hmodel, hpods⟩

/-- Witness for C4 on the self-dependent one-stage pipeline. -/
theorem execute_rejects_cyclic_pipeline_witness :
    CycleIn (stageDeps (mkStageMap exReqCyclic.stages)) ∧
    buildExecutionOrder (stageDeps (mkStageMap exReqCyclic.stages)) = none ∧
    executeModel exReqCyclic (fun _ => none) = .error "circular dependency detected" ∧
    executeCreatedPods exReqCyclic (fun _ => none) = [] := by
  have hc : CycleIn (stageDeps (mkStageMap exReqCyclic.stages)) :=
    ⟨"a", [], List.Chain.cons (by unfold DepEdge; decide) List.Chain.nil⟩
  exact ⟨hc, execute_rejects_cyclic_pipeline exReqCyclic (fun _ => none) hc⟩
